import Mathlib

/-!
Shallow embedding of the MANTIS2 repeat-finder and repeat-counter
(`src/lib/tools/repeat_finder.rs`, `src/lib/tools/repeat_counter.rs`),
together with theorems settling the claims about them.

Bases are modelled as `Nat` (the `u8` byte values of the Rust code);
machine `usize` arithmetic only ever subtracts guarded quantities in the
modelled paths, so `Nat` arithmetic coincides with the source except where
explicitly noted (the bank-capacity underflow, modelled in
`build_finders`).
-/

namespace Mantis

/-- Command-line options of the repeat finder (`Opts` in `repeat_finder.rs`);
only the fields the engine reads are modelled. -/
structure Opts where
  min_bases : Nat
  max_bases : Nat
  min_repeats : Nat
  min_repeat_length : Nat
  max_repeat_length : Nat
  deriving Repr, DecidableEq

/-- A repeat found by a `KmerFinder` (`Repeat` in `repeat_finder.rs`). -/
structure Repeat where
  kmer : List Nat
  num_repeats : Nat
  span : Nat
  deriving Repr, DecidableEq

/-- Streaming periodicity detector for one unit length
(`KmerFinder` in `repeat_finder.rs`). -/
structure KmerFinder where
  kmer : List Nat
  index : Nat
  span : Nat
  deriving Repr, DecidableEq

/-- A four-column BED record as built by `to_bed_record`
(`noodles::bed::Record<4>` restricted to the fields the code sets). -/
structure BedRecord where
  contig : String
  start : Nat
  stop : Nat
  name : String
  deriving Repr, DecidableEq

namespace KmerFinder

/-- `KmerFinder::new`. -/
def new (size : Nat) : KmerFinder :=
  { kmer := List.replicate size 110, index := 0, span := 0 }

/-- `KmerFinder::len`. -/
def len (f : KmerFinder) : Nat := f.kmer.length

/-- Inner cyclic-copy loop of `KmerFinder::emit`: the emitted unit read off
from the circular buffer starting at offset `j0`. -/
def cyclicCopy (buf : List Nat) (j0 : Nat) : List Nat :=
  (List.range buf.length).map (fun o => buf.getD ((j0 + o) % buf.length) 0)

/-- `KmerFinder::emit`: return the repeat seen so far, `none` if fewer than
`len` bases have been added. -/
def emit (f : KmerFinder) : Option Repeat :=
  if f.span < f.len then none
  else
    let remainder := f.span % f.len
    let j0 := if remainder ≤ f.index then f.index - remainder
              else f.index + f.len - remainder
    some { kmer := cyclicCopy f.kmer j0
           num_repeats := f.span / f.len
           span := f.span }

/-- `KmerFinder::add_maybe_emit`: feed one base; returns the updated finder
and, on a break with `emit = true`, the repeat that just ended. -/
def add_maybe_emit (f : KmerFinder) (base : Nat) (emit? : Bool) :
    KmerFinder × Option Repeat :=
  let (f1, retval) :=
    if f.span < f.len then
      ({ f with kmer := f.kmer.set f.index base }, none)
    else if f.kmer.getD f.index 0 == base then
      (f, none)
    else
      let rep := if emit? then f.emit else none
      ({ kmer := f.kmer.set f.index base, index := f.index,
         span := f.len - 1 }, rep)
  ({ f1 with
      index := if f1.index == f1.len - 1 then 0 else f1.index + 1,
      span := f1.span + 1 }, retval)

/-- `KmerFinder::reset`. -/
def reset (f : KmerFinder) : KmerFinder :=
  { kmer := List.replicate f.len 110, index := 0, span := 0 }

end KmerFinder

/-- Inner scan of `is_repeat`: the `while j < unit.len() && unit[i] == unit[j]`
loop, written with the remaining trip count `unit.length - j` as structural
fuel; returns `true` iff `j` reaches `unit.len()` with every pair equal. -/
def pairScanGo (unit : List Nat) : Nat → Nat → Nat → Bool
  | 0, _, _ => true
  | fuel + 1, i, j =>
    if unit.getD i 0 == unit.getD j 0 then pairScanGo unit fuel (i + 1) (j + 1)
    else false

/-- Inner scan of `is_repeat` started at indices `i`, `j`. -/
def pairScan (unit : List Nat) (i j : Nat) : Bool :=
  pairScanGo unit (unit.length - j) i j

/-- Outer loop of `is_repeat`, trying candidate sub-unit sizes downward. -/
def is_repeatAux (unit : List Nat) : Nat → Bool
  | 0 => false
  | k + 1 =>
    if unit.length % (k + 1) == 0 && pairScan unit 0 (k + 1) then true
    else is_repeatAux unit k

/-- `is_repeat` in `repeat_finder.rs`: true if the sequence is composed of a
repeated smaller sequence. -/
def is_repeat (unit : List Nat) : Bool :=
  let kmer_size := unit.length / 2
  let kmer_size := if kmer_size == unit.length then unit.length - 1 else kmer_size
  is_repeatAux unit kmer_size

/-- Render a unit (byte list) as the string the Rust code obtains with
`String::from_utf8_lossy`. -/
def kmerString (kmer : List Nat) : String :=
  String.mk (kmer.map Char.ofNat)

/-- `to_bed_record` in `repeat_finder.rs`: convert a repeat ending just
before `position` to a BED record if it passes all filters. -/
def to_bed_record (opts : Opts) (contig : String) (position : Nat)
    (finder : KmerFinder) (rep : Repeat) : Option BedRecord :=
  if rep.span < opts.min_bases || opts.max_bases < rep.span
      || rep.span / finder.len < opts.min_repeats
      || is_repeat rep.kmer then
    none
  else
    some { contig := contig
           start := position - rep.span
           stop := position - 1
           name := "(" ++ kmerString rep.kmer ++ ")"
                   ++ toString (rep.span / finder.len) }

/-- The `while i <= opts.max_repeat_length` loop of `run` that pushes one
`KmerFinder` per unit length, written with the trip count `max + 1 - i` as
structural fuel. -/
def finders_from_go : Nat → Nat → List KmerFinder
  | 0, _ => []
  | n + 1, i => KmerFinder.new i :: finders_from_go n (i + 1)

/-- The bank-building loop started at unit length `i`. -/
def finders_from (i max : Nat) : List KmerFinder :=
  finders_from_go (max + 1 - i) i

/-- Bank construction in `run`. The capacity expression
`opts.max_repeat_length - opts.min_repeat_length + 1` is a `usize`
subtraction: when `max < min` it underflows and the process panics instead
of returning an error; the panic is modelled by the `error` constructor. -/
def build_finders (opts : Opts) : Except String (List KmerFinder) :=
  if opts.max_repeat_length < opts.min_repeat_length then
    Except.error "attempt to subtract with overflow"
  else
    Except.ok (finders_from opts.min_repeat_length opts.max_repeat_length)

/-- One base step of `run`'s inner `for finder in &mut finders` loop: every
finder ingests the (uppercased) base; the first finder whose repeat passes
`to_bed_record` writes a record and sets `found`, suppressing emission from
the finders polled after it. -/
def stepBase (opts : Opts) (contig : String) (i : Nat) (base : Nat) :
    List KmerFinder → Bool → List KmerFinder × List BedRecord
  | [], _ => ([], [])
  | f :: rest, found =>
    let fr := f.add_maybe_emit base (!found)
    match fr.2 with
    | none =>
      let tail := stepBase opts contig i base rest found
      (fr.1 :: tail.1, tail.2)
    | some rep =>
      if found then
        let tail := stepBase opts contig i base rest found
        (fr.1 :: tail.1, tail.2)
      else
        match to_bed_record opts contig i fr.1 rep with
        | none =>
          let tail := stepBase opts contig i base rest false
          (fr.1 :: tail.1, tail.2)
        | some rec0 =>
          let tail := stepBase opts contig i base rest true
          (fr.1 :: tail.1, rec0 :: tail.2)

/-- The `while i <= record.sequence().len()` loop of `run` over one contig:
each base is uppercased with `& 0xdf` and fed to the bank. -/
def scanContig (opts : Opts) (contig : String) :
    Nat → List KmerFinder → List Nat → List KmerFinder × List BedRecord
  | _, finders, [] => (finders, [])
  | i, finders, b :: bs =>
    let step := stepBase opts contig i (b &&& 0xdf) finders false
    let rest := scanContig opts contig (i + 1) step.1 bs
    (rest.1, step.2 ++ rest.2)

/-- End-of-contig flush of `run`: each finder attempts emission with its
current span; the loop `break`s after the first record written. -/
def flushFinders (opts : Opts) (contig : String) (i : Nat) :
    List KmerFinder → List BedRecord
  | [] => []
  | f :: rest =>
    match f.emit with
    | some rep =>
      match to_bed_record opts contig i f rep with
      | some rec0 => [rec0]
      | none => flushFinders opts contig i rest
    | none => flushFinders opts contig i rest

/-- `run` restricted to a single contig: build the bank, scan every base,
then flush.  The `Except` layer carries the bank-capacity panic. -/
def run_one_contig (opts : Opts) (contig : String) (seq : List Nat) :
    Except String (List BedRecord) :=
  match build_finders opts with
  | Except.error e => Except.error e
  | Except.ok finders =>
    let scanned := scanContig opts contig 1 finders seq
    Except.ok (scanned.2 ++ flushFinders opts contig (seq.length + 1) scanned.1)

/-- Byte list of a string of bases (ASCII). -/
def basesOf (s : String) : List Nat := s.data.map Char.toNat

/-! Repeat-counter pipeline (`repeat_counter.rs`).  The bounded channels
carry jobs between stages; their interleavings are modelled by quantifying
over arbitrary job lists. -/

/-- The alignment-record fields inspected by `query_reads`
(`sam::alignment::Record` restricted to what the counter reads). -/
structure ReadRec where
  unmapped : Bool
  cigar : List Nat
  alignment_start : Nat
  alignment_end : Nat
  deriving Repr, DecidableEq

/-- `WorkerJob` in `repeat_counter.rs`. -/
structure WorkerJob where
  locus : BedRecord
  record : ReadRec
  is_normal : Bool
  deriving Repr, DecidableEq

/-- `CounterJob` in `repeat_counter.rs`. -/
structure CounterJob where
  locus : BedRecord
  count : Nat
  is_normal : Bool
  deriving Repr, DecidableEq

/-- The condition under which `query_reads` sends a record to the worker
stage: mapped, non-empty CIGAR, and the alignment encloses the locus. -/
def passes_query_filter (r : ReadRec) (bed : BedRecord) : Bool :=
  !r.unmapped && !r.cigar.isEmpty
    && decide (r.alignment_start ≤ bed.start)
    && decide (bed.stop ≤ r.alignment_end)

/-- `query_reads`: iterate the records returned for the region and enqueue a
`WorkerJob` for each record passing the filter. -/
def query_reads (queried : List ReadRec) (is_normal : Bool)
    (bed : BedRecord) : List WorkerJob :=
  (queried.filter (passes_query_filter · bed)).map
    (fun r => { locus := bed, record := r, is_normal := is_normal })

/-- The spanning predicate as the spec words it (§3): a read is spanning for
a locus iff it is mapped, has a non-empty CIGAR, and
`start ≤ locus.start ∧ locus.end ≤ end`. -/
def Spanning (r : ReadRec) (bed : BedRecord) : Prop :=
  r.unmapped = false ∧ r.cigar ≠ [] ∧
    r.alignment_start ≤ bed.start ∧ bed.stop ≤ r.alignment_end

instance (r : ReadRec) (bed : BedRecord) : Decidable (Spanning r bed) := by
  unfold Spanning
  infer_instance

/-- Body of the worker-stage loop: each `WorkerJob` is turned into a
`CounterJob` with `count: 0` (the count computation is a stub in the
source). -/
def worker_step (j : WorkerJob) : CounterJob :=
  { locus := j.locus, count := 0, is_normal := j.is_normal }

/-- The worker stage over the jobs it receives, in arrival order. -/
def worker_stage (jobs : List WorkerJob) : List CounterJob :=
  jobs.map worker_step

/-- Modelled from the spec: §4.2.1 step 3.  The CIGAR walk and window
extraction (steps 1–2) are absent from `src`; this models, over an already
extracted window, the length of the longest contiguous run of the unit
starting at a given point, comparing bases case-insensitively (uppercase via
`& 0xdf`). -/
def runFromAux (u : List Nat) : List Nat → Nat → Nat
  | [], _ => 0
  | b :: rest, o =>
    if (b &&& 0xdf) == (u.getD (o % u.length) 0 &&& 0xdf) then
      runFromAux u rest (o + 1) + 1
    else 0

/-- Modelled from the spec: §4.2.1 step 3, "identify the longest contiguous
run of the locus's unit (modulo case) within the extracted window"; the
observed repeat count is then `longest_unit_run w u / u.length`. -/
def longest_unit_run (w u : List Nat) : Nat :=
  ((List.range (w.length + 1)).map (fun p => runFromAux u (w.drop p) 0)).foldr
    max 0

instance : Inhabited BedRecord := ⟨⟨"", 0, 0, ""⟩⟩

/-- The locus hash key used by the aggregator: `count_job.locus.to_string()`,
the BED line of the record (tab-separated, 0-based start on the wire). -/
def locusKey (l : BedRecord) : String :=
  l.contig ++ "\t" ++ toString (l.start - 1) ++ "\t" ++ toString l.stop
    ++ "\t" ++ l.name

/-- `map.entry(key).or_insert(dflt)` followed by an in-place modification
`f`, on an association list kept in insertion order. -/
def updateEntry {α β : Type} [BEq α] (key : α) (dflt : β) (f : β → β) :
    List (α × β) → List (α × β)
  | [] => [(key, f dflt)]
  | (k, v) :: rest =>
    if k == key then (k, f v) :: rest else (k, v) :: updateEntry key dflt f rest

/-- `map.entry(key).or_insert(v)` with no modification. -/
def orInsert {α β : Type} [BEq α] (key : α) (v : β) :
    List (α × β) → List (α × β)
  | [] => [(key, v)]
  | (k, w) :: rest =>
    if k == key then (k, w) :: rest else (k, w) :: orInsert key v rest

/-- Map from `is_normal` to a read tally. -/
abbrev TnMap := List (Bool × Nat)

/-- Map from repeat count to per-sample tallies. -/
abbrev CountMap := List (Nat × TnMap)

/-- The aggregator's in-memory state: `key_to_locus` and the nested
`counter` map. -/
structure AggState where
  key_to_locus : List (String × BedRecord)
  counter : List (String × CountMap)
  deriving Repr

/-- Body of the aggregator drain loop (`while let Ok(count_job) = ...`). -/
def drain_one (st : AggState) (job : CounterJob) : AggState :=
  let key := locusKey job.locus
  { key_to_locus := orInsert key job.locus st.key_to_locus
    counter :=
      updateEntry key [] (fun repeatMap =>
        updateEntry job.count [] (fun tn =>
          updateEntry job.is_normal 0 (· + 1) tn) repeatMap) st.counter }

/-- The aggregator's drain phase over the `CounterJob`s it receives, in
arrival order. -/
def drain (jobs : List CounterJob) : AggState :=
  jobs.foldl drain_one { key_to_locus := [], counter := [] }

/-- Boolean lexicographic order on the aggregator's cached sort key
`(contig offset, start position, end position)`. -/
def lociLe (offsets : String → Nat) (a b : BedRecord) : Bool :=
  decide (offsets a.contig < offsets b.contig)
  || (offsets a.contig == offsets b.contig
      && (decide (a.start < b.start)
          || (a.start == b.start && decide (a.stop ≤ b.stop))))

/-- Collection and sort phase: pair every counter key with its retained
locus (the panic branch "Bug: locus not found" is unreachable and modelled
by the `Inhabited` default), then sort by `(contig_offset, start, end)`.
`offsets` abstracts the map read from the FASTA index; the code panics on a
contig absent from it.  The source uses the standard library's stable sort;
`insertionSort` is stable as well and agrees with it on every list. -/
def lociSorted (offsets : String → Nat) (st : AggState) :
    List (String × BedRecord) :=
  (st.counter.map
      (fun e => (e.1, (List.lookup e.1 st.key_to_locus).getD default))).insertionSort
    (fun a b => lociLe offsets a.2 b.2 = true)

/-- One output line of the aggregator (`println!` fields, structured). -/
structure Row where
  contig : String
  start : Nat
  stop : Nat
  length : Nat
  normal : Nat
  tumor : Nat
  deriving Repr, DecidableEq

/-- Emission loop body for one locus: sort the observed repeat counts
ascending and write one line per count, with absent samples printed as 0. -/
def rowsFor (locus : BedRecord) (repeatMap : CountMap) : List Row :=
  ((repeatMap.map (·.1)).insertionSort (· ≤ ·)).map
    (fun len =>
      let tn := (List.lookup len repeatMap).getD []
      { contig := locus.contig, start := locus.start, stop := locus.stop
        length := len
        normal := (List.lookup true tn).getD 0
        tumor := (List.lookup false tn).getD 0 })

/-- The aggregator end to end: drain all jobs, sort the loci, emit rows. -/
def aggregator_output (offsets : String → Nat) (jobs : List CounterJob) :
    List Row :=
  let st := drain jobs
  (lociSorted offsets st).flatMap
    (fun kl => rowsFor kl.2 ((List.lookup kl.1 st.counter).getD []))

end Mantis

section ScratchTests
open Mantis

example : is_repeat (basesOf "A") = false := by decide
example : is_repeat (basesOf "AA") = true := by decide
example : is_repeat (basesOf "CGCG") = true := by decide
example : is_repeat (basesOf "CAGCAGCA") = false := by decide
example : is_repeat (basesOf "CAGCAGCAG") = true := by decide
example : is_repeat (basesOf "CAGCTGCAG") = false := by decide
example : is_repeat (basesOf "CAGCAGCAGCAGCAG") = true := by decide
example : is_repeat (basesOf "CAGCAGCAGCAGCAGC") = false := by decide
example : is_repeat (basesOf "CAGCAGCAGCAGCAGCA") = false := by decide

example :
    run_one_contig
      { min_bases := 10, max_bases := 20, min_repeats := 3,
        min_repeat_length := 2, max_repeat_length := 5 }
      "c" (basesOf ("CG" ++ "CG" ++ "CG" ++ "CG" ++ "CG")) =
    Except.ok [{ contig := "c", start := 1, stop := 10, name := "(CG)5" }] := by
  rfl

example :
    run_one_contig
      { min_bases := 10, max_bases := 20, min_repeats := 3,
        min_repeat_length := 2, max_repeat_length := 5 }
      "complicated"
      (basesOf ("CGCGCGCGCG" ++ "C" ++ "CGCGCGCGCGCGCGCGCGCG" ++ "TCGTT"
                ++ "ACGACGACG" ++ "TGGATTGGATTGGAT" ++ "AGG")) =
    Except.ok
      [{ contig := "complicated", start := 1, stop := 11, name := "(CG)5" },
       { contig := "complicated", start := 12, stop := 31, name := "(CG)10" },
       { contig := "complicated", start := 46, stop := 60, name := "(TGGAT)3" }] := by
  rfl

example :
    run_one_contig
      { min_bases := 2, max_bases := 100, min_repeats := 2,
        min_repeat_length := 1, max_repeat_length := 3 }
      "c" (basesOf "BAABAABAAB") =
    Except.ok
      [{ contig := "c", start := 2, stop := 3, name := "(A)2" },
       { contig := "c", start := 5, stop := 6, name := "(A)2" },
       { contig := "c", start := 8, stop := 9, name := "(A)2" },
       { contig := "c", start := 1, stop := 10, name := "(BAA)3" }] := by
  rfl

example :
    aggregator_output (fun _ => 0)
      [{ locus := ⟨"chr1", 100, 115, "(A)16"⟩, count := 16, is_normal := true },
       { locus := ⟨"chr1", 100, 115, "(A)16"⟩, count := 14, is_normal := false },
       { locus := ⟨"chr1", 100, 115, "(A)16"⟩, count := 16, is_normal := true }] =
    [{ contig := "chr1", start := 100, stop := 115, length := 14,
       normal := 0, tumor := 1 },
     { contig := "chr1", start := 100, stop := 115, length := 16,
       normal := 2, tumor := 0 }] := by
  rfl

example : longest_unit_run (basesOf "GGAAAAat") (basesOf "A") = 5 := by rfl

end ScratchTests

namespace Mantis

/-! Helper lemmas. -/

theorem KmerFinder.new_len (size : Nat) : (KmerFinder.new size).len = size := by
  simp [KmerFinder.new, KmerFinder.len]

theorem finders_from_go_map_len :
    ∀ n i, (finders_from_go n i).map KmerFinder.len = List.range' i n := by
  intro n
  induction n with
  | zero => intro i; rfl
  | succ n ih =>
    intro i
    simp [finders_from_go, List.range', ih, KmerFinder.new_len]

theorem finders_from_map_len (i max : Nat) :
    (finders_from i max).map KmerFinder.len = List.range' i (max + 1 - i) :=
  finders_from_go_map_len _ _

/-! Association-list lemmas for the aggregator model. -/

section AssocLemmas

variable {α β : Type} [BEq α] [LawfulBEq α] [DecidableEq α]

theorem lookup_updateEntry (key key' : α) (dflt : β) (f : β → β) :
    ∀ m : List (α × β),
      List.lookup key (updateEntry key' dflt f m) =
        if key = key' then some (f ((List.lookup key' m).getD dflt))
        else List.lookup key m
  | [] => by
    by_cases h : key = key'
    · simp [updateEntry, List.lookup_cons, h]
    · simp [updateEntry, List.lookup_cons, h, beq_eq_false_iff_ne.mpr h]
  | (k, v) :: rest => by
    by_cases hk : k = key'
    · subst hk
      by_cases h : key = k
      · subst h
        simp [updateEntry, List.lookup_cons]
      · simp [updateEntry, List.lookup_cons, h, beq_eq_false_iff_ne.mpr h]
    · have hne : (k == key') = false := beq_eq_false_iff_ne.mpr hk
      have hne2 : (key' == k) = false := beq_eq_false_iff_ne.mpr (Ne.symm hk)
      have hrec := lookup_updateEntry key key' dflt f rest
      by_cases h2 : key = k
      · subst h2
        have h3 : key ≠ key' := hk
        simp [updateEntry, List.lookup_cons, hne, hne2, h3, hrec]
      · simp [updateEntry, List.lookup_cons, hne, hne2,
          beq_eq_false_iff_ne.mpr h2, hrec]

theorem sumMap_updateEntry (g : β → Nat) (key : α) (dflt : β) (f : β → β)
    (d : Nat) (hdflt : g dflt = 0) (hf : ∀ v, g (f v) = g v + d) :
    ∀ m : List (α × β),
      ((updateEntry key dflt f m).map (fun e => g e.2)).sum =
        (m.map (fun e => g e.2)).sum + d
  | [] => by simp [updateEntry, hf, hdflt]
  | (k, v) :: rest => by
    by_cases hk : k = key
    · simp [updateEntry, beq_iff_eq.mpr hk, hf]
      omega
    · have := sumMap_updateEntry g key dflt f d hdflt hf rest
      simp [updateEntry, beq_eq_false_iff_ne.mpr hk, this]
      omega

theorem keys_updateEntry (key : α) (dflt : β) (f : β → β) :
    ∀ m : List (α × β),
      (updateEntry key dflt f m).map (·.1) =
        if key ∈ m.map (·.1) then m.map (·.1)
        else m.map (·.1) ++ [key]
  | [] => by simp [updateEntry]
  | (k, v) :: rest => by
    by_cases hk : k = key
    · subst hk
      simp [updateEntry]
    · have := keys_updateEntry key dflt f rest
      have hkk : ¬ key = k := Ne.symm hk
      by_cases hmem : key ∈ rest.map (·.1) <;>
        simp [updateEntry, beq_eq_false_iff_ne.mpr hk, hmem, hkk, this]

theorem nodup_keys_updateEntry (key : α) (dflt : β) (f : β → β)
    (m : List (α × β)) (h : (m.map (·.1)).Nodup) :
    ((updateEntry key dflt f m).map (·.1)).Nodup := by
  rw [keys_updateEntry]
  by_cases hmem : key ∈ m.map (·.1)
  · simpa [hmem] using h
  · simp only [hmem, if_false]
    refine List.Nodup.append h (List.nodup_singleton key) ?_
    intro a ha hb
    simp only [List.mem_singleton] at hb
    subst hb
    exact hmem ha

theorem mem_updateEntry {e : α × β} (key : α) (dflt : β) (f : β → β) :
    ∀ m : List (α × β), e ∈ updateEntry key dflt f m →
      e ∈ m ∨ (e.1 = key ∧ (e.2 = f dflt ∨ ∃ v, (key, v) ∈ m ∧ e.2 = f v))
  | [], h => by
    simp only [updateEntry, List.mem_singleton] at h
    subst h
    exact Or.inr ⟨rfl, Or.inl rfl⟩
  | (k, v) :: rest, h => by
    by_cases hk : k = key
    · subst hk
      simp only [updateEntry, beq_self_eq_true, if_true, List.mem_cons] at h
      rcases h with h | h
      · subst h
        exact Or.inr ⟨rfl, Or.inr ⟨v, List.mem_cons_self _ _, rfl⟩⟩
      · exact Or.inl (List.mem_cons_of_mem _ h)
    · simp only [updateEntry, beq_eq_false_iff_ne.mpr hk, Bool.false_eq_true,
        if_false, List.mem_cons] at h
      rcases h with h | h
      · exact Or.inl (by simp [h])
      · rcases mem_updateEntry key dflt f rest h with h2 | ⟨h2, h3⟩
        · exact Or.inl (List.mem_cons_of_mem _ h2)
        · refine Or.inr ⟨h2, ?_⟩
          rcases h3 with h3 | ⟨w, hw, hw2⟩
          · exact Or.inl h3
          · exact Or.inr ⟨w, List.mem_cons_of_mem _ hw, hw2⟩

theorem mem_orInsert {e : α × β} (key : α) (v : β) :
    ∀ m : List (α × β), e ∈ orInsert key v m → e ∈ m ∨ e = (key, v)
  | [], h => Or.inr (by simpa [orInsert] using h)
  | (k, w) :: rest, h => by
    by_cases hk : k = key
    · subst hk
      simp only [orInsert, beq_self_eq_true, if_true] at h
      exact Or.inl h
    · simp only [orInsert, beq_eq_false_iff_ne.mpr hk, Bool.false_eq_true,
        if_false, List.mem_cons] at h
      rcases h with h | h
      · exact Or.inl (by simp [h])
      · rcases mem_orInsert key v rest h with h2 | h2
        · exact Or.inl (List.mem_cons_of_mem _ h2)
        · exact Or.inr h2

theorem lookup_orInsert (key key' : α) (v : β) :
    ∀ m : List (α × β),
      List.lookup key (orInsert key' v m) =
        if key = key' then some ((List.lookup key' m).getD v)
        else List.lookup key m
  | [] => by
    by_cases h : key = key'
    · simp [orInsert, List.lookup_cons, h]
    · simp [orInsert, List.lookup_cons, h, beq_eq_false_iff_ne.mpr h]
  | (k, w) :: rest => by
    by_cases hk : k = key'
    · subst hk
      by_cases h : key = k
      · subst h
        simp [orInsert, List.lookup_cons]
      · simp [orInsert, List.lookup_cons, h, beq_eq_false_iff_ne.mpr h]
    · have hne : (k == key') = false := beq_eq_false_iff_ne.mpr hk
      have hne2 : (key' == k) = false := beq_eq_false_iff_ne.mpr (Ne.symm hk)
      have hrec := lookup_orInsert key key' v rest
      by_cases h2 : key = k
      · subst h2
        have h3 : key ≠ key' := hk
        simp [orInsert, List.lookup_cons, hne, hne2, h3, hrec]
      · simp [orInsert, List.lookup_cons, hne, hne2,
          beq_eq_false_iff_ne.mpr h2, hrec]

omit [DecidableEq α] in
theorem lookup_none_of_not_mem_keys {key : α} :
    ∀ {m : List (α × β)}, ¬ key ∈ m.map (·.1) → List.lookup key m = none
  | [], _ => rfl
  | (k, v) :: rest, h => by
    simp only [List.map_cons, List.mem_cons] at h
    push_neg at h
    simp [List.lookup_cons, beq_eq_false_iff_ne.mpr h.1,
      lookup_none_of_not_mem_keys h.2]

end AssocLemmas

/-! Aggregator bookkeeping: totals and well-formedness of the drained maps. -/

/-- Total reads recorded in an `is_normal → tally` map. -/
def tnTotal (tn : TnMap) : Nat := (tn.map (fun e => e.2)).sum

/-- Total reads recorded in a `count → tally-map` map. -/
def cmTotal (cm : CountMap) : Nat := (cm.map (fun e => tnTotal e.2)).sum

theorem updateEntry_ne_nil {α β : Type} [BEq α] (key : α) (dflt : β)
    (f : β → β) : ∀ m : List (α × β), updateEntry key dflt f m ≠ []
  | [] => by simp [updateEntry]
  | (k, v) :: rest => by
    by_cases hk : (k == key) <;> simp [updateEntry, hk]

theorem lookup_some_mem {α β : Type} [BEq α] [LawfulBEq α] {key : α} {v : β} :
    ∀ {m : List (α × β)}, List.lookup key m = some v → (key, v) ∈ m
  | [], h => by simp at h
  | (k, w) :: rest, h => by
    rw [List.lookup_cons] at h
    by_cases hk : key = k
    · subst hk
      simp only [beq_self_eq_true] at h
      cases h
      exact List.mem_cons_self _ _
    · simp only [beq_eq_false_iff_ne.mpr hk] at h
      exact List.mem_cons_of_mem _ (lookup_some_mem h)

/-- The nested-map update performed by `drain_one` on one `CountMap` adds
exactly one read to its total. -/
theorem cmTotal_nested_update (c : Nat) (b : Bool) (cm : CountMap) :
    cmTotal (updateEntry c [] (fun tn => updateEntry b 0 (· + 1) tn) cm) =
      cmTotal cm + 1 := by
  refine sumMap_updateEntry tnTotal c [] _ 1 rfl ?_ cm
  intro tn
  exact sumMap_updateEntry (fun v => v) b 0 (· + 1) 1 rfl (fun _ => rfl) tn

/-- Per-key read conservation of the drain loop: the total recorded under a
key grows by exactly the number of jobs carrying that key. -/
theorem cmTotal_drain_counter (key : String) :
    ∀ (jobs : List CounterJob) (st : AggState),
      cmTotal ((List.lookup key (jobs.foldl drain_one st).counter).getD []) =
        cmTotal ((List.lookup key st.counter).getD []) +
        (jobs.filter (fun j => locusKey j.locus == key)).length
  | [], st => by simp
  | job :: jobs, st => by
    rw [List.foldl_cons, cmTotal_drain_counter key jobs]
    show cmTotal ((List.lookup key (drain_one st job).counter).getD []) + _ = _
    rw [show (drain_one st job).counter =
      updateEntry (locusKey job.locus) []
        (fun repeatMap => updateEntry job.count []
          (fun tn => updateEntry job.is_normal 0 (· + 1) tn) repeatMap)
        st.counter from rfl]
    rw [lookup_updateEntry]
    by_cases h : key = locusKey job.locus
    · simp only [h, if_true, Option.getD_some, List.filter_cons,
        beq_iff_eq.mpr h.symm]
      rw [cmTotal_nested_update]
      simp
      omega
    · have hne : (locusKey job.locus == key) = false :=
        beq_eq_false_iff_ne.mpr (fun he => h he.symm)
      simp only [h, if_false, List.filter_cons, hne, Bool.false_eq_true]

/-- Well-formedness of a per-sample tally map. -/
def TnWF (tn : TnMap) : Prop :=
  (tn.map (·.1)).Nodup ∧ ∀ e ∈ tn, 1 ≤ e.2

/-- Well-formedness of a per-count map. -/
def CmWF (cm : CountMap) : Prop :=
  (cm.map (·.1)).Nodup ∧ ∀ e ∈ cm, TnWF e.2 ∧ e.2 ≠ []

/-- Well-formedness of the aggregator state. -/
def StWF (st : AggState) : Prop :=
  (st.counter.map (·.1)).Nodup ∧ ∀ e ∈ st.counter, CmWF e.2

theorem tnWF_update (b : Bool) (tn : TnMap) (h : TnWF tn) :
    TnWF (updateEntry b 0 (· + 1) tn) := by
  refine ⟨nodup_keys_updateEntry _ _ _ _ h.1, ?_⟩
  intro e he
  rcases mem_updateEntry b 0 (· + 1) tn he with h2 | ⟨_, h3⟩
  · exact h.2 e h2
  · rcases h3 with h3 | ⟨v, _, h3⟩ <;> omega

theorem cmWF_update (c : Nat) (b : Bool) (cm : CountMap) (h : CmWF cm) :
    CmWF (updateEntry c [] (fun tn => updateEntry b 0 (· + 1) tn) cm) := by
  refine ⟨nodup_keys_updateEntry _ _ _ _ h.1, ?_⟩
  intro e he
  rcases mem_updateEntry c [] _ cm he with h2 | ⟨_, h3⟩
  · exact h.2 e h2
  · have hupd : ∀ tn, TnWF tn → TnWF (updateEntry b 0 (· + 1) tn) ∧
        updateEntry b 0 (· + 1) tn ≠ [] :=
      fun tn htn => ⟨tnWF_update b tn htn, updateEntry_ne_nil _ _ _ tn⟩
    rcases h3 with h3 | ⟨v, hv, h3⟩
    · rw [h3]
      exact hupd [] ⟨List.nodup_nil, by simp⟩
    · rw [h3]
      exact hupd v ((h.2 (c, v) hv).1)

theorem drain_one_wf (st : AggState) (job : CounterJob) (h : StWF st) :
    StWF (drain_one st job) := by
  refine ⟨nodup_keys_updateEntry _ _ _ _ h.1, ?_⟩
  intro e he
  rcases mem_updateEntry _ _ _ st.counter he with h2 | ⟨_, h3⟩
  · exact h.2 e h2
  · rcases h3 with h3 | ⟨v, hv, h3⟩
    · rw [h3]
      exact cmWF_update _ _ [] ⟨List.nodup_nil, by simp⟩
    · rw [h3]
      exact cmWF_update _ _ v (h.2 _ hv)

theorem drain_wf : ∀ (jobs : List CounterJob) (st : AggState),
    StWF st → StWF (jobs.foldl drain_one st)
  | [], _, h => h
  | job :: jobs, st, h =>
    drain_wf jobs (drain_one st job) (drain_one_wf st job h)

/-- A `true`/`false` lookup pair sums to the map's total when keys are
distinct. -/
theorem tn_true_false_sum :
    ∀ tn : TnMap, (tn.map (·.1)).Nodup →
      (List.lookup true tn).getD 0 + (List.lookup false tn).getD 0 = tnTotal tn
  | [], _ => rfl
  | (b, n) :: rest, h => by
    have hkeys : (b :: rest.map (·.1)).Nodup := by simpa using h
    have hnd := List.nodup_cons.mp hkeys
    have hrest := tn_true_false_sum rest hnd.2
    have hnone : List.lookup b rest = none :=
      lookup_none_of_not_mem_keys hnd.1
    have ht : tnTotal ((b, n) :: rest) = n + tnTotal rest := by
      simp [tnTotal]
    cases b
    · rw [hnone] at hrest
      simp only [Option.getD_none, Nat.add_zero] at hrest
      have h1 : List.lookup true ((false, n) :: rest) = List.lookup true rest := by
        simp [List.lookup_cons]
      have h2 : List.lookup false ((false, n) :: rest) = some n := by
        simp [List.lookup_cons]
      rw [h1, h2, ht]
      simp only [Option.getD_some]
      omega
    · rw [hnone] at hrest
      simp only [Option.getD_none] at hrest
      have h1 : List.lookup false ((true, n) :: rest) = List.lookup false rest := by
        simp [List.lookup_cons]
      have h2 : List.lookup true ((true, n) :: rest) = some n := by
        simp [List.lookup_cons]
      rw [h1, h2, ht]
      simp only [Option.getD_some]
      omega

/-! Theorems for the claims. -/

/-- C9: if `min_repeat_length ≤ max_repeat_length` the bank is built and
holds exactly `max - min + 1` finders whose unit lengths are
`min, min+1, …, max`; if `max_repeat_length < min_repeat_length` the
`usize` capacity subtraction underflows and `run` panics (modelled by the
`error` result) instead of returning a normal error. -/
theorem claim_c9_bank_construction (opts : Opts) :
    (opts.min_repeat_length ≤ opts.max_repeat_length →
      build_finders opts =
        Except.ok (finders_from opts.min_repeat_length opts.max_repeat_length) ∧
      (finders_from opts.min_repeat_length opts.max_repeat_length).length =
        opts.max_repeat_length - opts.min_repeat_length + 1 ∧
      (finders_from opts.min_repeat_length opts.max_repeat_length).map
          KmerFinder.len =
        List.range' opts.min_repeat_length
          (opts.max_repeat_length - opts.min_repeat_length + 1)) ∧
    (opts.max_repeat_length < opts.min_repeat_length →
      build_finders opts = Except.error "attempt to subtract with overflow") := by
  constructor
  · intro h
    refine ⟨?_, ?_, ?_⟩
    · simp [build_finders, Nat.not_lt.mpr h]
    · have := congrArg List.length (finders_from_map_len
        opts.min_repeat_length opts.max_repeat_length)
      simpa using this.trans (by simp; omega)
    · rw [finders_from_map_len]
      congr 1
      omega
  · intro h
    simp [build_finders, h]

/-- Witness for C9 at `min = 2, max = 5` and at `min = 5, max = 2`. -/
theorem claim_c9_bank_construction_witness :
    (finders_from 2 5).length = 4 ∧
    build_finders
      { min_bases := 10, max_bases := 100, min_repeats := 3,
        min_repeat_length := 5, max_repeat_length := 2 } =
      Except.error "attempt to subtract with overflow" := by
  refine ⟨?_, ?_⟩
  · have h := (claim_c9_bank_construction
      { min_bases := 10, max_bases := 100, min_repeats := 3,
        min_repeat_length := 2, max_repeat_length := 5 }).1 (by decide)
    exact h.2.1
  · exact (claim_c9_bank_construction _).2 (by decide)

/-- C3: the worker stage is a stub: it emits `count = 0` for every spanning
read, whereas the spec's observed repeat count at e.g. window `AAAA` with
unit `A` is `⌊4/1⌋ = 4`. -/
theorem claim_c3_worker_count_stub :
    (∀ j : WorkerJob, (worker_step j).count = 0) ∧
    longest_unit_run (basesOf "AAAA") (basesOf "A") / (basesOf "A").length = 4 := by
  exact ⟨fun _ => rfl, by rfl⟩

/-- C8: on the complex contig, the finder with
`min_bases=10, max_bases=20, min_repeats=3, L∈[2,5]` emits exactly the
three loci `(1,11,"(CG)5")`, `(12,31,"(CG)10")`, `(46,60,"(TGGAT)3")`, in
that order; in particular the 9-bp `ACGACGACG` block yields no record. -/
theorem claim_c8_complex_contig :
    run_one_contig
      { min_bases := 10, max_bases := 20, min_repeats := 3,
        min_repeat_length := 2, max_repeat_length := 5 }
      "complicated"
      (basesOf ("CGCGCGCGCG" ++ "C" ++ "CGCGCGCGCGCGCGCGCGCG" ++ "TCGTT"
                ++ "ACGACGACG" ++ "TGGATTGGATTGGAT" ++ "AGG")) =
    Except.ok
      [{ contig := "complicated", start := 1, stop := 11, name := "(CG)5" },
       { contig := "complicated", start := 12, stop := 31, name := "(CG)10" },
       { contig := "complicated", start := 46, stop := 60, name := "(TGGAT)3" }] := by
  rfl

theorem passes_query_filter_iff (r : ReadRec) (bed : BedRecord) :
    passes_query_filter r bed = true ↔ Spanning r bed := by
  simp [passes_query_filter, Spanning, List.isEmpty_iff, and_assoc]

theorem passes_query_filter_eq_decide (r : ReadRec) (bed : BedRecord) :
    passes_query_filter r bed = decide (Spanning r bed) := by
  by_cases h : Spanning r bed
  · rw [(passes_query_filter_iff r bed).mpr h, decide_eq_true h]
  · rw [decide_eq_false h]
    by_contra hne
    exact h ((passes_query_filter_iff r bed).mp (by
      cases hval : passes_query_filter r bed
      · exact absurd hval hne
      · rfl))

/-- C7: a queried read is forwarded to the worker stage iff it is spanning:
the boolean filter of `query_reads` agrees with the spec's spanning
predicate, and a job for read `r` is enqueued iff `r` was queried and is
spanning; all other reads produce no job. -/
theorem claim_c7_forward_iff_spanning (r : ReadRec) (bed : BedRecord)
    (queried : List ReadRec) (n : Bool) :
    (passes_query_filter r bed = true ↔ Spanning r bed) ∧
    (({ locus := bed, record := r, is_normal := n } : WorkerJob) ∈
        query_reads queried n bed ↔ r ∈ queried ∧ Spanning r bed) := by
  have hiff := passes_query_filter_iff r bed
  refine ⟨hiff, ?_⟩
  rw [query_reads, List.mem_map]
  constructor
  · rintro ⟨r', hr', heq⟩
    cases heq
    have := List.mem_filter.mp hr'
    exact ⟨this.1, hiff.mp this.2⟩
  · rintro ⟨hmem, hsp⟩
    exact ⟨r, List.mem_filter.mpr ⟨hmem, hiff.mpr hsp⟩, rfl⟩

/-- Witness for C7 at a concrete spanning read. -/
theorem claim_c7_forward_iff_spanning_witness :
    ({ locus := ⟨"chr1", 100, 115, "(A)16"⟩,
       record := ⟨false, [0], 90, 120⟩, is_normal := true } : WorkerJob) ∈
      query_reads [⟨false, [0], 90, 120⟩] true ⟨"chr1", 100, 115, "(A)16"⟩ :=
  (claim_c7_forward_iff_spanning ⟨false, [0], 90, 120⟩
      ⟨"chr1", 100, 115, "(A)16"⟩ [⟨false, [0], 90, 120⟩] true).2.mpr
    ⟨by decide, by refine ⟨rfl, by decide, by decide, by decide⟩⟩

/-- Per-row read total expressed through the lookups performed by
`rowsFor`. -/
def rowTally (cm : CountMap) (len : Nat) : Nat :=
  (List.lookup true ((List.lookup len cm).getD [])).getD 0 +
    (List.lookup false ((List.lookup len cm).getD [])).getD 0

theorem cmWF_of_cons {c : Nat} {tn : TnMap} {rest : CountMap}
    (h : CmWF ((c, tn) :: rest)) : CmWF rest := by
  refine ⟨?_, fun e he => h.2 e (List.mem_cons_of_mem _ he)⟩
  have : (c :: rest.map (·.1)).Nodup := by simpa using h.1
  exact (List.nodup_cons.mp this).2

theorem keys_rowTally_sum :
    ∀ cm : CountMap, CmWF cm →
      ((cm.map (·.1)).map (rowTally cm)).sum = cmTotal cm
  | [], _ => rfl
  | (c, tn) :: rest, h => by
    have hkeys : (c :: rest.map (·.1)).Nodup := by simpa using h.1
    have hnd := List.nodup_cons.mp hkeys
    have hWFrest : CmWF rest := cmWF_of_cons h
    have hhead : rowTally ((c, tn) :: rest) c = tnTotal tn := by
      rw [rowTally, List.lookup_cons_self]
      exact tn_true_false_sum tn (h.2 (c, tn) (List.mem_cons_self _ _)).1.1
    have htail : (rest.map (·.1)).map (rowTally ((c, tn) :: rest)) =
        (rest.map (·.1)).map (rowTally rest) := by
      refine List.map_congr_left ?_
      intro len hlen
      have hne : len ≠ c := fun he => hnd.1 (he ▸ hlen)
      rw [rowTally, rowTally, List.lookup_cons,
        show (len == c) = false from beq_eq_false_iff_ne.mpr hne]
    have htotal : cmTotal ((c, tn) :: rest) = tnTotal tn + cmTotal rest := by
      simp [cmTotal]
    simp only [List.map_cons, List.sum_cons, hhead, htail, htotal,
      keys_rowTally_sum rest hWFrest]

theorem rowsFor_sum (locus : BedRecord) (cm : CountMap) (h : CmWF cm) :
    ((rowsFor locus cm).map (fun r => r.normal + r.tumor)).sum = cmTotal cm := by
  have hmap : (rowsFor locus cm).map (fun r => r.normal + r.tumor) =
      ((cm.map (·.1)).insertionSort (· ≤ ·)).map (rowTally cm) := by
    rw [rowsFor, List.map_map]
    rfl
  rw [hmap]
  have hperm : List.Perm
      (((cm.map (·.1)).insertionSort (· ≤ ·)).map (rowTally cm))
      ((cm.map (·.1)).map (rowTally cm)) :=
    (List.perm_insertionSort _ _).map _
  rw [hperm.sum_eq]
  exact keys_rowTally_sum cm h

theorem stWF_drain (jobs : List CounterJob) : StWF (drain jobs) :=
  drain_wf jobs _ ⟨List.nodup_nil, by simp⟩

theorem cmWF_drain_lookup (jobs : List CounterJob) (key : String) :
    CmWF ((List.lookup key (drain jobs).counter).getD []) := by
  cases hlk : List.lookup key (drain jobs).counter with
  | none => exact ⟨List.nodup_nil, by simp⟩
  | some cm =>
    exact (stWF_drain jobs).2 (key, cm) (lookup_some_mem hlk)

/-- Every worker job produced by `query_reads` carries the queried locus. -/
theorem query_reads_locus (reads : List ReadRec) (n : Bool)
    (bed : BedRecord) : ∀ wj ∈ query_reads reads n bed, wj.locus = bed := by
  intro wj hwj
  rcases List.mem_map.mp hwj with ⟨r, _, heq⟩
  rw [← heq]

/-- C5: for a locus, the sum over its emitted rows of
`normal_reads + tumor_reads` equals the number of spanning reads queried
for it across both samples, whatever the arrival order of the count jobs.
The source implements no quality-control filters, so every spanning read is
QC-passing and no read is dropped between the query stage and the rows. -/
theorem claim_c5_count_conservation (bed : BedRecord)
    (reads_n reads_t : List ReadRec) (jobs : List CounterJob)
    (hperm : jobs.Perm (worker_stage
      (query_reads reads_n true bed ++ query_reads reads_t false bed))) :
    ((rowsFor ((List.lookup (locusKey bed) (drain jobs).key_to_locus).getD
          default)
        ((List.lookup (locusKey bed) (drain jobs).counter).getD [])).map
      (fun r => r.normal + r.tumor)).sum =
    (reads_n.filter (fun r => decide (Spanning r bed))).length +
    (reads_t.filter (fun r => decide (Spanning r bed))).length := by
  rw [rowsFor_sum _ _ (cmWF_drain_lookup jobs (locusKey bed))]
  have hdrain := cmTotal_drain_counter (locusKey bed) jobs
    { key_to_locus := [], counter := [] }
  rw [show drain jobs = jobs.foldl drain_one { key_to_locus := [], counter := [] }
    from rfl, hdrain]
  simp only [List.lookup_nil, Option.getD_none]
  have hlen := (hperm.filter (fun j => locusKey j.locus == locusKey bed)).length_eq
  rw [show cmTotal [] = 0 from rfl, Nat.zero_add, hlen]
  have hall : ∀ (reads : List ReadRec) (n : Bool),
      ((worker_stage (query_reads reads n bed)).filter
        (fun j => locusKey j.locus == locusKey bed)) =
      worker_stage (query_reads reads n bed) := by
    intro reads n
    refine List.filter_eq_self.mpr ?_
    intro cj hcj
    rcases List.mem_map.mp hcj with ⟨wj, hwj, heq⟩
    have : wj.locus = bed := query_reads_locus reads n bed wj hwj
    rw [← heq, worker_step, this]
    exact beq_self_eq_true _
  rw [worker_stage, List.map_append, List.filter_append]
  rw [show (List.map worker_step (query_reads reads_n true bed)).filter
        (fun j => locusKey j.locus == locusKey bed) =
      worker_stage (query_reads reads_n true bed) from hall reads_n true,
    show (List.map worker_step (query_reads reads_t false bed)).filter
        (fun j => locusKey j.locus == locusKey bed) =
      worker_stage (query_reads reads_t false bed) from hall reads_t false]
  simp only [List.length_append, worker_stage, List.length_map, query_reads]
  rw [List.filter_congr (fun r _ => passes_query_filter_eq_decide r bed),
    List.filter_congr (fun r _ => passes_query_filter_eq_decide r bed)]

theorem keys_orInsert {α β : Type} [BEq α] [LawfulBEq α] (key : α) (v : β) :
    ∀ m : List (α × β),
      (orInsert key v m).map (·.1) =
        if key ∈ m.map (·.1) then m.map (·.1) else m.map (·.1) ++ [key]
  | [] => by simp [orInsert]
  | (k, w) :: rest => by
    by_cases hk : k = key
    · subst hk
      simp [orInsert]
    · have := keys_orInsert key v rest
      have hkk : ¬ key = k := Ne.symm hk
      by_cases hmem : key ∈ rest.map (·.1) <;>
        simp [orInsert, beq_eq_false_iff_ne.mpr hk, hmem, hkk, this]

theorem mem_keys_orInsert {α β : Type} [BEq α] [LawfulBEq α] (key k : α)
    (v : β) (m : List (α × β)) (h : k ∈ m.map (·.1) ∨ k = key) :
    k ∈ (orInsert key v m).map (·.1) := by
  rw [keys_orInsert]
  by_cases hmem : key ∈ m.map (·.1)
  · simp only [hmem, if_true]
    rcases h with h | h
    · exact h
    · exact h ▸ hmem
  · simp only [hmem, if_false, List.mem_append, List.mem_singleton]
    tauto

theorem lookup_eq_some_of_mem_nodup {α β : Type} [BEq α] [LawfulBEq α]
    {key : α} {v : β} :
    ∀ {m : List (α × β)}, (key, v) ∈ m → (m.map (·.1)).Nodup →
      List.lookup key m = some v
  | [], h, _ => absurd h (List.not_mem_nil _)
  | (k, w) :: rest, h, hnd => by
    have hk : (k :: rest.map (·.1)).Nodup := by simpa using hnd
    have hnd' := List.nodup_cons.mp hk
    rcases List.mem_cons.mp h with h1 | h1
    · cases h1
      exact List.lookup_cons_self
    · have hne : key ≠ k := by
        rintro rfl
        exact hnd'.1 (by
          simpa using List.mem_map_of_mem (·.1) h1)
      rw [List.lookup_cons, show (key == k) = false from beq_eq_false_iff_ne.mpr hne]
      exact lookup_eq_some_of_mem_nodup h1 hnd'.2

theorem mem_keys_lookup_some {α β : Type} [BEq α] [LawfulBEq α] {key : α}
    {m : List (α × β)} (h : key ∈ m.map (·.1)) :
    ∃ v, List.lookup key m = some v := by
  rcases List.mem_map.mp h with ⟨e, he, heq⟩
  have : (List.lookup key m).isSome := by
    rw [List.lookup_isSome_iff]
    exact ⟨e, he, by simp [← heq]⟩
  rcases Option.isSome_iff_exists.mp this with ⟨v, hv⟩
  exact ⟨v, hv⟩

theorem tnTotal_pos {tn : TnMap} (hwf : TnWF tn) (hne : tn ≠ []) :
    1 ≤ tnTotal tn := by
  cases tn with
  | nil => exact absurd rfl hne
  | cons e rest =>
    have := hwf.2 e (List.mem_cons_self _ _)
    have : 1 ≤ e.2 := this
    simp only [tnTotal, List.map_cons, List.sum_cons]
    omega

/-- Provenance of the aggregator state relative to the jobs drained so
far. -/
def StFrom (all : List CounterJob) (st : AggState) : Prop :=
  (∀ e ∈ st.key_to_locus, ∃ j ∈ all, j.locus = e.2 ∧ locusKey j.locus = e.1) ∧
  (∀ e ∈ st.counter, ∀ ce ∈ e.2,
    ∃ j ∈ all, locusKey j.locus = e.1 ∧ j.count = ce.1) ∧
  (∀ e ∈ st.counter, e.1 ∈ st.key_to_locus.map (·.1)) ∧
  (st.key_to_locus.map (·.1)).Nodup

theorem drain_one_stfrom {all : List CounterJob} {st : AggState}
    {job : CounterJob} (hjob : job ∈ all) (h : StFrom all st) :
    StFrom all (drain_one st job) := by
  obtain ⟨h1, h2, h3, h4⟩ := h
  refine ⟨?_, ?_, ?_, ?_⟩
  · intro e he
    rcases mem_orInsert _ _ _ he with h5 | h5
    · exact h1 e h5
    · exact ⟨job, hjob, by rw [h5], by rw [h5]⟩
  · intro e he ce hce
    rcases mem_updateEntry _ _ _ _ he with h5 | ⟨h5, h6⟩
    · exact h2 e h5 ce hce
    · have hkey : e.1 = locusKey job.locus := h5
      have hce2 : ce ∈ e.2 → e.2 = updateEntry job.count []
          (fun tn => updateEntry job.is_normal 0 (· + 1) tn)
          ((List.lookup (locusKey job.locus) st.counter).getD []) → True := by
        intro _ _; trivial
      rcases h6 with h6 | ⟨v, hv, h6⟩
      · rw [h6] at hce
        rcases mem_updateEntry _ _ _ _ hce with h7 | ⟨h7, _⟩
        · exact absurd h7 (List.not_mem_nil _)
        · exact ⟨job, hjob, hkey.symm, h7.symm⟩
      · rw [h6] at hce
        rcases mem_updateEntry _ _ _ _ hce with h7 | ⟨h7, _⟩
        · exact h2 (locusKey job.locus, v) hv ce (by simpa using h7) |>.imp
            (fun j hj => ⟨hj.1, hkey ▸ hj.2.1, hj.2.2⟩)
        · exact ⟨job, hjob, hkey.symm, h7.symm⟩
  · intro e he
    rcases mem_updateEntry _ _ _ _ he with h5 | ⟨h5, _⟩
    · exact mem_keys_orInsert _ _ _ _ (Or.inl (h3 e h5))
    · exact mem_keys_orInsert _ _ _ _ (Or.inr h5)
  · show ((orInsert (locusKey job.locus) job.locus st.key_to_locus).map
      (·.1)).Nodup
    rw [keys_orInsert]
    by_cases hmem : locusKey job.locus ∈ st.key_to_locus.map (·.1)
    · simpa [hmem] using h4
    · simp only [hmem, if_false]
      refine List.Nodup.append h4 (List.nodup_singleton _) ?_
      intro a ha hb
      simp only [List.mem_singleton] at hb
      subst hb
      exact hmem ha

theorem drain_stfrom_aux (all : List CounterJob) :
    ∀ (jobs : List CounterJob) (st : AggState), (∀ j ∈ jobs, j ∈ all) →
      StFrom all st → StFrom all (jobs.foldl drain_one st)
  | [], _, _, h => h
  | job :: jobs, st, hsub, h =>
    drain_stfrom_aux all jobs (drain_one st job)
      (fun j hj => hsub j (List.mem_cons_of_mem _ hj))
      (drain_one_stfrom (hsub job (List.mem_cons_self _ _)) h)

theorem drain_stfrom (jobs : List CounterJob) : StFrom jobs (drain jobs) :=
  drain_stfrom_aux jobs jobs _ (fun _ h => h)
    ⟨fun _ h => absurd h (List.not_mem_nil _),
     fun _ h => absurd h (List.not_mem_nil _),
     fun _ h => absurd h (List.not_mem_nil _), List.nodup_nil⟩

/-- C10: every printed line has `normal_reads + tumor_reads ≥ 1`; a
`(locus, count)` row appears only if some received job carried that key and
count (and some job with the same key supplied the printed locus fields);
with no jobs at all, nothing is printed. -/
theorem claim_c10_rows_positive (offsets : String → Nat)
    (jobs : List CounterJob) :
    (∀ row ∈ aggregator_output offsets jobs,
      1 ≤ row.normal + row.tumor ∧
      ∃ j ∈ jobs, ∃ j2 ∈ jobs, locusKey j.locus = locusKey j2.locus ∧
        j.count = row.length ∧ j2.locus.contig = row.contig ∧
        j2.locus.start = row.start ∧ j2.locus.stop = row.stop) ∧
    aggregator_output offsets [] = [] := by
  refine ⟨?_, rfl⟩
  intro row hrow
  rcases List.mem_flatMap.mp hrow with ⟨kl, hkl, hrowin⟩
  have hklmem : kl ∈ (drain jobs).counter.map
      (fun e => (e.1, (List.lookup e.1 (drain jobs).key_to_locus).getD default)) :=
    ((List.perm_insertionSort _ _).mem_iff).mp hkl
  rcases List.mem_map.mp hklmem with ⟨e, he, heq⟩
  have hwf := stWF_drain jobs
  have hfrom := drain_stfrom jobs
  have hkey : kl.1 = e.1 := by rw [← heq]
  have hlocuskey : e.1 ∈ (drain jobs).key_to_locus.map (·.1) :=
    hfrom.2.2.1 e he
  rcases mem_keys_lookup_some hlocuskey with ⟨l, hl⟩
  have hlocus : kl.2 = l := by rw [← heq]; simp [hl]
  have hlmem : (e.1, l) ∈ (drain jobs).key_to_locus := lookup_some_mem hl
  rcases hfrom.1 _ hlmem with ⟨j2, hj2, hj2l, hj2k⟩
  have hcm : List.lookup kl.1 (drain jobs).counter = some e.2 := by
    rw [hkey]
    exact lookup_eq_some_of_mem_nodup he hwf.1
  rw [hcm] at hrowin
  simp only [Option.getD_some] at hrowin
  rcases List.mem_map.mp hrowin with ⟨len, hlen, hroweq⟩
  have hlenmem : len ∈ e.2.map (·.1) :=
    ((List.perm_insertionSort _ _).mem_iff).mp hlen
  rcases List.mem_map.mp hlenmem with ⟨ce, hce, hceeq⟩
  have hcmwf : CmWF e.2 := hwf.2 e he
  have htn : List.lookup len e.2 = some ce.2 := by
    rw [← hceeq]
    exact lookup_eq_some_of_mem_nodup (by simpa using hce) hcmwf.1
  have htnwf := hcmwf.2 ce hce
  subst hroweq
  constructor
  · show 1 ≤ (List.lookup true ((List.lookup len e.2).getD [])).getD 0 +
      (List.lookup false ((List.lookup len e.2).getD [])).getD 0
    rw [htn]
    simp only [Option.getD_some]
    rw [tn_true_false_sum ce.2 htnwf.1.1]
    exact tnTotal_pos htnwf.1 htnwf.2
  · rcases hfrom.2.1 e he ce hce with ⟨j, hj, hjkey, hjcount⟩
    refine ⟨j, hj, j2, hj2, by rw [hjkey, hj2k], ?_, ?_, ?_, ?_⟩
    · rw [hjcount, hceeq]
    · rw [hj2l, hlocus]
    · rw [hj2l, hlocus]
    · rw [hj2l, hlocus]

/-- Witness for C10 at a one-job instance. -/
theorem claim_c10_rows_positive_witness :
    1 ≤ Row.normal ⟨"chr1", 100, 115, 3, 1, 0⟩ +
        Row.tumor ⟨"chr1", 100, 115, 3, 1, 0⟩ :=
  ((claim_c10_rows_positive (fun _ => 0)
      [{ locus := ⟨"chr1", 100, 115, "(A)16"⟩, count := 3,
         is_normal := true }]).1
    ⟨"chr1", 100, 115, 3, 1, 0⟩ (by decide)).1

/-! Characterization of one polling pass over the finder bank. -/

/-- The state update of `add_maybe_emit` does not depend on the `emit`
flag. -/
theorem add_state_indep (f : KmerFinder) (base : Nat) (e e' : Bool) :
    (f.add_maybe_emit base e).1 = (f.add_maybe_emit base e').1 := by
  unfold KmerFinder.add_maybe_emit
  split_ifs <;> rfl

/-- With the emit flag off, `add_maybe_emit` never returns a repeat. -/
theorem add_no_emit (f : KmerFinder) (base : Nat) :
    (f.add_maybe_emit base false).2 = none := by
  unfold KmerFinder.add_maybe_emit
  split_ifs <;> first | rfl | contradiction

/-- The record a finder would write at this step, were it polled with the
emit flag on: its returned repeat filtered through `to_bed_record`. -/
def wouldEmit (opts : Opts) (contig : String) (i : Nat) (base : Nat)
    (f : KmerFinder) : Option BedRecord :=
  match (f.add_maybe_emit base true).2 with
  | none => none
  | some rep => to_bed_record opts contig i (f.add_maybe_emit base true).1 rep

/-- The bank state after one step is each finder updated independently. -/
theorem stepBase_state (opts : Opts) (contig : String) (i base : Nat) :
    ∀ (finders : List KmerFinder) (found : Bool),
      (stepBase opts contig i base finders found).1 =
        finders.map (fun f => (f.add_maybe_emit base true).1)
  | [], _ => rfl
  | f :: rest, true => by
    have hnone : (f.add_maybe_emit base false).2 = none := add_no_emit f base
    simp only [stepBase, Bool.not_true]
    rw [add_state_indep f base false true,
      stepBase_state opts contig i base rest true]
    simp only [hnone, List.map_cons]
  | f :: rest, false => by
    simp only [stepBase, Bool.not_false]
    cases hadd : (f.add_maybe_emit base true).2 with
    | none =>
      simp only [hadd]
      rw [stepBase_state opts contig i base rest false]
      simp
    | some rep =>
      simp only [hadd, Bool.false_eq_true, if_false]
      cases hbed : to_bed_record opts contig i (f.add_maybe_emit base true).1 rep with
      | none =>
        simp only [hbed]
        rw [stepBase_state opts contig i base rest false]
        simp
      | some rec0 =>
        simp only [hbed]
        rw [stepBase_state opts contig i base rest true]
        simp

/-- With `found` already set, a polling pass writes nothing. -/
theorem stepBase_found (opts : Opts) (contig : String) (i base : Nat) :
    ∀ finders : List KmerFinder,
      (stepBase opts contig i base finders true).2 = []
  | [] => rfl
  | f :: rest => by
    have := stepBase_found opts contig i base rest
    have hnone := add_no_emit f base
    simp [stepBase, hnone, this]

/-- A polling pass with `found` clear writes exactly the first record that
passes the gates, scanning the bank in order. -/
theorem stepBase_out (opts : Opts) (contig : String) (i base : Nat) :
    ∀ finders : List KmerFinder,
      (stepBase opts contig i base finders false).2 =
        (finders.findSome? (wouldEmit opts contig i base)).toList
  | [] => rfl
  | f :: rest => by
    have hrec := stepBase_out opts contig i base rest
    cases hadd : (f.add_maybe_emit base true).2 with
    | none =>
      have hw : wouldEmit opts contig i base f = none := by
        simp [wouldEmit, hadd]
      simp only [stepBase, Bool.not_false, hadd, List.findSome?_cons, hw, hrec]
    | some rep =>
      cases hrec2 : to_bed_record opts contig i (f.add_maybe_emit base true).1 rep with
      | none =>
        have hw : wouldEmit opts contig i base f = none := by
          simp [wouldEmit, hadd, hrec2]
        simp only [stepBase, Bool.not_false, hadd, List.findSome?_cons, hw, hrec,
          hrec2, Bool.false_eq_true, if_false]
      | some rec0 =>
        have hw : wouldEmit opts contig i base f = some rec0 := by
          simp [wouldEmit, hadd, hrec2]
        simp only [stepBase, Bool.not_false, hadd, List.findSome?_cons, hw, hrec,
          hrec2, Bool.false_eq_true, if_false]
        simp [stepBase_found opts contig i base rest]

/-- The end-of-contig flush is likewise a first-success scan. -/
theorem flushFinders_out (opts : Opts) (contig : String) (i : Nat) :
    ∀ finders : List KmerFinder,
      flushFinders opts contig i finders =
        (finders.findSome?
          (fun f => f.emit.bind (to_bed_record opts contig i f))).toList
  | [] => rfl
  | f :: rest => by
    have hrec := flushFinders_out opts contig i rest
    cases hemit : f.emit with
    | none => simp [flushFinders, hemit, List.findSome?_cons, hrec]
    | some rep =>
      cases hbed : to_bed_record opts contig i f rep with
      | none => simp [flushFinders, hemit, hbed, List.findSome?_cons, hrec]
      | some rec0 => simp [flushFinders, hemit, hbed, List.findSome?_cons]

/-- C4: at most one locus is written per base step (and per end-of-contig
flush); the polling pass writes exactly the first record, in bank order,
that passes the gates — so with the bank's unit lengths ascending
(`min, min+1, …, max`, third conjunct), the smallest-period finder wins —
and finders polled after an emission still update their state (fourth
conjunct). -/
theorem claim_c4_single_emission (opts : Opts) (contig : String)
    (i base : Nat) (finders : List KmerFinder) :
    ((stepBase opts contig i base finders false).2.length ≤ 1 ∧
      (flushFinders opts contig i finders).length ≤ 1) ∧
    ((stepBase opts contig i base finders false).2 =
      (finders.findSome? (wouldEmit opts contig i base)).toList ∧
      flushFinders opts contig i finders =
        (finders.findSome?
          (fun f => f.emit.bind (to_bed_record opts contig i f))).toList) ∧
    (finders_from opts.min_repeat_length opts.max_repeat_length).map
        KmerFinder.len =
      List.range' opts.min_repeat_length
        (opts.max_repeat_length + 1 - opts.min_repeat_length) ∧
    (stepBase opts contig i base finders false).1 =
      finders.map (fun f => (f.add_maybe_emit base true).1) := by
  refine ⟨⟨?_, ?_⟩, ⟨stepBase_out _ _ _ _ _, flushFinders_out _ _ _ _⟩,
    finders_from_map_len _ _, stepBase_state _ _ _ _ _ _⟩
  · rw [stepBase_out]
    cases finders.findSome? (wouldEmit opts contig i base) <;> simp
  · rw [flushFinders_out]
    cases finders.findSome? (fun f => f.emit.bind (to_bed_record opts contig i f)) <;>
      simp

/-! Ordering of the finder's output within a contig. -/

/-- Shape of any record produced by `to_bed_record`. -/
theorem to_bed_record_some {opts : Opts} {contig : String} {position : Nat}
    {finder : KmerFinder} {rep : Repeat} {rec : BedRecord}
    (h : to_bed_record opts contig position finder rep = some rec) :
    rec.contig = contig ∧ rec.start = position - rep.span ∧
    rec.stop = position - 1 ∧
    rec.name = "(" ++ kmerString rep.kmer ++ ")"
                ++ toString (rep.span / finder.len) ∧
    (rep.span < opts.min_bases || opts.max_bases < rep.span
      || rep.span / finder.len < opts.min_repeats
      || is_repeat rep.kmer) = false := by
  by_cases hg : (rep.span < opts.min_bases || opts.max_bases < rep.span
      || rep.span / finder.len < opts.min_repeats
      || is_repeat rep.kmer) = true
  · rw [to_bed_record, if_pos hg] at h
    cases h
  · rw [to_bed_record, if_neg hg] at h
    cases h
    exact ⟨rfl, rfl, rfl, rfl, by simpa using hg⟩

/-- Any record written at one base step ends at `i - 1`. -/
theorem stepBase_stop {opts : Opts} {contig : String} {i base : Nat}
    {finders : List KmerFinder} {rec : BedRecord}
    (h : rec ∈ (stepBase opts contig i base finders false).2) :
    rec.stop = i - 1 := by
  rw [stepBase_out] at h
  cases hfs : finders.findSome? (wouldEmit opts contig i base) with
  | none => rw [hfs] at h; cases h
  | some rec0 =>
    rw [hfs] at h
    simp only [Option.toList_some, List.mem_singleton] at h
    subst h
    rcases List.exists_of_findSome?_eq_some hfs with ⟨f, _, hf⟩
    rw [wouldEmit] at hf
    cases hadd : (f.add_maybe_emit base true).2 with
    | none => rw [hadd] at hf; cases hf
    | some rep =>
      rw [hadd] at hf
      exact (to_bed_record_some hf).2.2.1

/-- Any record written by the flush at position `i` ends at `i - 1`. -/
theorem flushFinders_stop {opts : Opts} {contig : String} {i : Nat}
    {finders : List KmerFinder} {rec : BedRecord}
    (h : rec ∈ flushFinders opts contig i finders) :
    rec.stop = i - 1 := by
  rw [flushFinders_out] at h
  cases hfs : finders.findSome?
      (fun f => f.emit.bind (to_bed_record opts contig i f)) with
  | none => rw [hfs] at h; cases h
  | some rec0 =>
    rw [hfs] at h
    simp only [Option.toList_some, List.mem_singleton] at h
    subst h
    rcases List.exists_of_findSome?_eq_some hfs with ⟨f, _, hf⟩
    cases hemit : f.emit with
    | none => rw [hemit] at hf; cases hf
    | some rep =>
      rw [hemit] at hf
      exact (to_bed_record_some hf).2.2.1

/-- Bounds and strict end-ordering of the records of a scan started at
position `i ≥ 1`. -/
theorem scanContig_stops (opts : Opts) (contig : String) :
    ∀ (bs : List Nat) (i : Nat) (finders : List KmerFinder), 1 ≤ i →
      (∀ rec ∈ (scanContig opts contig i finders bs).2,
        i ≤ rec.stop + 1 ∧ rec.stop + 1 < i + bs.length) ∧
      (scanContig opts contig i finders bs).2.Pairwise
        (fun r1 r2 => r1.stop < r2.stop)
  | [], i, finders, _ => by simp [scanContig]
  | b :: bs, i, finders, hi => by
    have hrec := scanContig_stops opts contig bs (i + 1)
      (stepBase opts contig i (b &&& 0xdf) finders false).1 (by omega)
    have hstep : ∀ rec ∈ (stepBase opts contig i (b &&& 0xdf) finders false).2,
        rec.stop = i - 1 := fun rec h => stepBase_stop h
    have hsplit : (scanContig opts contig i finders (b :: bs)).2 =
        (stepBase opts contig i (b &&& 0xdf) finders false).2 ++
        (scanContig opts contig (i + 1)
          (stepBase opts contig i (b &&& 0xdf) finders false).1 bs).2 := rfl
    constructor
    · intro rec hmem
      rw [hsplit] at hmem
      rcases List.mem_append.mp hmem with hm | hm
      · have := hstep rec hm
        simp only [List.length_cons]
        omega
      · have := hrec.1 rec hm
        simp only [List.length_cons]
        omega
    · rw [hsplit]
      refine List.pairwise_append.mpr ⟨?_, hrec.2, ?_⟩
      · rw [stepBase_out]
        cases finders.findSome? (wouldEmit opts contig i (b &&& 0xdf)) <;> simp
      · intro r1 h1 r2 h2
        have e1 := hstep r1 h1
        have e2 := hrec.1 r2 h2
        omega

/-- Amended finder ordering: within one contig the emitted loci have
strictly increasing end positions. -/
theorem run_one_contig_stops {opts : Opts} {contig : String} {seq : List Nat}
    {recs : List BedRecord}
    (h : run_one_contig opts contig seq = Except.ok recs) :
    recs.Pairwise (fun r1 r2 => r1.stop < r2.stop) := by
  rw [run_one_contig] at h
  cases hb : build_finders opts with
  | error e => rw [hb] at h; cases h
  | ok finders =>
    rw [hb] at h
    cases h
    have hscan := scanContig_stops opts contig seq 1 finders (by omega)
    refine List.pairwise_append.mpr ⟨hscan.2, ?_, ?_⟩
    · rw [flushFinders_out]
      cases List.findSome?
        (fun f => f.emit.bind (to_bed_record opts contig (seq.length + 1) f))
        (scanContig opts contig 1 finders seq).1 <;> simp
    · intro r1 h1 r2 h2
      have e1 := hscan.1 r1 h1
      have e2 := flushFinders_stop h2
      omega

/-- C6 counterexample: with `min_bases = 2, min_repeats = 2, L ∈ [1,3]` on
contig `BAABAABAAB`, the finder writes `(2,3), (5,6), (8,9)` mid-contig and
then `(1,10)` from the end-of-contig flush, so the output is not ordered by
`(start, end)`. -/
theorem claim_c6_counterexample :
    run_one_contig
      { min_bases := 2, max_bases := 100, min_repeats := 2,
        min_repeat_length := 1, max_repeat_length := 3 }
      "c" (basesOf "BAABAABAAB") =
      Except.ok
        [⟨"c", 2, 3, "(A)2"⟩, ⟨"c", 5, 6, "(A)2"⟩, ⟨"c", 8, 9, "(A)2"⟩,
         ⟨"c", 1, 10, "(BAA)3"⟩] ∧
    ¬ ([⟨"c", 2, 3, "(A)2"⟩, ⟨"c", 5, 6, "(A)2"⟩, ⟨"c", 8, 9, "(A)2"⟩,
        ⟨"c", 1, 10, "(BAA)3"⟩] : List BedRecord).Pairwise
        (fun r1 r2 => r1.start < r2.start ∨
          (r1.start = r2.start ∧ r1.stop ≤ r2.stop)) := by
  exact ⟨by rfl, by decide⟩

/-! Ordering of the counter's output rows. -/

/-- The aggregator's cached sort key of a locus. -/
def tripleOf (offsets : String → Nat) (l : BedRecord) : Nat × Nat × Nat :=
  (offsets l.contig, l.start, l.stop)

/-- Lexicographic order on sort keys, as a proposition. -/
def TripleLe (a b : Nat × Nat × Nat) : Prop :=
  a.1 < b.1 ∨ (a.1 = b.1 ∧ (a.2.1 < b.2.1 ∨ (a.2.1 = b.2.1 ∧ a.2.2 ≤ b.2.2)))

/-- Strict lexicographic order on the full row key
`(contig offset, start, end, count)`. -/
def quadLt (a b : Nat × Nat × Nat × Nat) : Prop :=
  a.1 < b.1 ∨ (a.1 = b.1 ∧ (a.2.1 < b.2.1 ∨ (a.2.1 = b.2.1 ∧
    (a.2.2.1 < b.2.2.1 ∨ (a.2.2.1 = b.2.2.1 ∧ a.2.2.2 < b.2.2.2)))))

theorem lociLe_iff (offsets : String → Nat) (a b : BedRecord) :
    lociLe offsets a b = true ↔
      TripleLe (tripleOf offsets a) (tripleOf offsets b) := by
  simp [lociLe, tripleOf, TripleLe, Bool.or_eq_true, Bool.and_eq_true,
    beq_iff_eq, decide_eq_true_eq]

theorem tripleLe_trans {a b c : Nat × Nat × Nat} (h1 : TripleLe a b)
    (h2 : TripleLe b c) : TripleLe a c := by
  obtain ⟨a1, a2, a3⟩ := a
  obtain ⟨b1, b2, b3⟩ := b
  obtain ⟨c1, c2, c3⟩ := c
  simp only [TripleLe] at h1 h2 ⊢
  omega

theorem tripleLe_total (a b : Nat × Nat × Nat) : TripleLe a b ∨ TripleLe b a := by
  obtain ⟨a1, a2, a3⟩ := a
  obtain ⟨b1, b2, b3⟩ := b
  simp only [TripleLe]
  omega

theorem tripleLt_of_le_ne {a b : Nat × Nat × Nat} (h : TripleLe a b)
    (hne : a ≠ b) :
    a.1 < b.1 ∨ (a.1 = b.1 ∧ (a.2.1 < b.2.1 ∨
      (a.2.1 = b.2.1 ∧ a.2.2 < b.2.2))) := by
  obtain ⟨a1, a2, a3⟩ := a
  obtain ⟨b1, b2, b3⟩ := b
  have h3 : ¬(a1 = b1 ∧ a2 = b2 ∧ a3 = b3) := by
    intro hc
    exact hne (by rw [hc.1, hc.2.1, hc.2.2])
  simp only [TripleLe] at h
  simp only
  omega

/-- The loci list produced by the aggregator's sort phase is ordered by the
cached key. -/
theorem lociSorted_pairwise (offsets : String → Nat) (st : AggState) :
    (lociSorted offsets st).Pairwise
      (fun a b => lociLe offsets a.2 b.2 = true) := by
  unfold lociSorted
  haveI : IsTrans (String × BedRecord)
      (fun a b => lociLe offsets a.2 b.2 = true) := ⟨by
    intro a b c hab hbc
    rw [lociLe_iff] at hab hbc ⊢
    exact tripleLe_trans hab hbc⟩
  haveI : IsTotal (String × BedRecord)
      (fun a b => lociLe offsets a.2 b.2 = true) := ⟨by
    intro a b
    rw [lociLe_iff, lociLe_iff]
    exact tripleLe_total _ _⟩
  exact List.sorted_insertionSort _ _

/-- Distinct entries of the sorted loci list carry distinct keys. -/
theorem lociSorted_keys_ne (offsets : String → Nat)
    (jobs : List CounterJob) :
    (lociSorted offsets (drain jobs)).Pairwise (fun a b => a.1 ≠ b.1) := by
  have hnodup : ((drain jobs).counter.map
      (fun e => (e.1, (List.lookup e.1 (drain jobs).key_to_locus).getD
        default))).map (·.1) |>.Nodup := by
    rw [List.map_map]
    exact (stWF_drain jobs).1
  have hperm := List.perm_insertionSort
    (fun a b : String × BedRecord => lociLe offsets a.2 b.2 = true)
    ((drain jobs).counter.map
      (fun e => (e.1, (List.lookup e.1 (drain jobs).key_to_locus).getD default)))
  have : ((lociSorted offsets (drain jobs)).map (·.1)).Nodup :=
    ((hperm.map (·.1)).nodup_iff).mpr hnodup
  exact (List.pairwise_map).mp this

/-- Every entry of the sorted loci list stems from a received job: its
locus field is some job's locus and its key that job's key. -/
theorem lociSorted_mem (offsets : String → Nat) (jobs : List CounterJob)
    {kl : String × BedRecord}
    (h : kl ∈ lociSorted offsets (drain jobs)) :
    ∃ j ∈ jobs, j.locus = kl.2 ∧ locusKey j.locus = kl.1 := by
  have hmem : kl ∈ (drain jobs).counter.map
      (fun e => (e.1, (List.lookup e.1 (drain jobs).key_to_locus).getD default)) :=
    ((List.perm_insertionSort _ _).mem_iff).mp h
  rcases List.mem_map.mp hmem with ⟨e, he, heq⟩
  have hfrom := drain_stfrom jobs
  have hlocuskey : e.1 ∈ (drain jobs).key_to_locus.map (·.1) :=
    hfrom.2.2.1 e he
  rcases mem_keys_lookup_some hlocuskey with ⟨l, hl⟩
  rcases hfrom.1 _ (lookup_some_mem hl) with ⟨j, hj, hjl, hjk⟩
  refine ⟨j, hj, ?_, ?_⟩
  · rw [hjl, ← heq]
    simp [hl]
  · rw [hjk, ← heq]

/-- Within one locus the emitted rows carry strictly increasing counts and
identical locus fields. -/
theorem rowsFor_pairwise (locus : BedRecord) (cm : CountMap) (h : CmWF cm) :
    (rowsFor locus cm).Pairwise (fun r1 r2 => r1.length < r2.length ∧
      r1.contig = r2.contig ∧ r1.start = r2.start ∧ r1.stop = r2.stop) := by
  have hsortle : ((cm.map (·.1)).insertionSort (· ≤ ·)).Sorted (· ≤ ·) :=
    List.sorted_insertionSort _ _
  have hnodup : ((cm.map (·.1)).insertionSort (· ≤ ·)).Nodup :=
    ((List.perm_insertionSort _ _).nodup_iff).mpr h.1
  have hsortlt := hsortle.lt_of_le hnodup
  rw [rowsFor, List.pairwise_map]
  exact hsortlt.imp (fun hab => ⟨hab, rfl, rfl, rfl⟩)

/-- The locus fields of any emitted row are those of its locus record. -/
theorem mem_rowsFor_fields {row : Row} {locus : BedRecord} {cm : CountMap}
    (h : row ∈ rowsFor locus cm) :
    row.contig = locus.contig ∧ row.start = locus.start ∧
      row.stop = locus.stop := by
  rcases List.mem_map.mp h with ⟨len, _, heq⟩
  subst heq
  exact ⟨rfl, rfl, rfl⟩

/-- C6, amended: within each contig the finder's loci are written with
strictly increasing end positions (but, per the counterexample, not always
sorted by `(start, end)`), and the counter's rows are strictly ordered by
`(contig offset, start, end, count)` whenever loci with equal sort keys
share their locus key. -/
theorem claim_c6_output_ordering (opts : Opts) (contig : String)
    (seq : List Nat) (recs : List BedRecord) (offsets : String → Nat)
    (jobs : List CounterJob)
    (hrun : run_one_contig opts contig seq = Except.ok recs)
    (hinj : ∀ j1 ∈ jobs, ∀ j2 ∈ jobs,
      tripleOf offsets j1.locus = tripleOf offsets j2.locus →
      locusKey j1.locus = locusKey j2.locus) :
    recs.Pairwise (fun r1 r2 => r1.stop < r2.stop) ∧
    (aggregator_output offsets jobs).Pairwise (fun r1 r2 =>
      quadLt (offsets r1.contig, r1.start, r1.stop, r1.length)
             (offsets r2.contig, r2.start, r2.stop, r2.length)) := by
  refine ⟨run_one_contig_stops hrun, ?_⟩
  rw [aggregator_output, List.pairwise_flatMap]
  constructor
  · intro kl _
    have hp := rowsFor_pairwise kl.2 _ (cmWF_drain_lookup jobs kl.1)
    refine hp.imp ?_
    intro r1 r2 ⟨hlt, hc, hs, he⟩
    right
    exact ⟨by rw [hc], by
      right
      exact ⟨hs, by
        right
        exact ⟨he, hlt⟩⟩⟩
  · have hord := lociSorted_pairwise offsets (drain jobs)
    have hne := lociSorted_keys_ne offsets jobs
    refine (hord.and hne).imp_of_mem ?_
    intro a b ha hb ⟨hle, hkne⟩ x hx y hy
    rcases lociSorted_mem offsets jobs ha with ⟨j1, hj1, hj1l, hj1k⟩
    rcases lociSorted_mem offsets jobs hb with ⟨j2, hj2, hj2l, hj2k⟩
    have htne : tripleOf offsets a.2 ≠ tripleOf offsets b.2 := by
      intro htr
      apply hkne
      rw [← hj1k, ← hj2k]
      exact hinj j1 hj1 j2 hj2 (by rw [hj1l, hj2l]; exact htr)
    have hstrict := tripleLt_of_le_ne ((lociLe_iff _ _ _).mp hle) htne
    obtain ⟨hxc, hxs, hxe⟩ := mem_rowsFor_fields hx
    obtain ⟨hyc, hys, hye⟩ := mem_rowsFor_fields hy
    simp only [tripleOf] at hstrict
    rw [quadLt]
    simp only [hxc, hxs, hxe, hyc, hys, hye]
    rcases hstrict with h1 | ⟨h1, h2⟩
    · exact Or.inl h1
    · rcases h2 with h2 | ⟨h2, h3⟩
      · exact Or.inr ⟨h1, Or.inl h2⟩
      · exact Or.inr ⟨h1, Or.inr ⟨h2, Or.inl h3⟩⟩

/-- Witness for C6's amended theorem on concrete inputs. -/
theorem claim_c6_output_ordering_witness :
    ([⟨"c", 1, 10, "(CG)5"⟩] : List BedRecord).Pairwise
      (fun r1 r2 => r1.stop < r2.stop) ∧
    (aggregator_output (fun _ => 0)
      [{ locus := ⟨"chr1", 100, 115, "(A)16"⟩, count := 3,
         is_normal := true }]).Pairwise (fun r1 r2 =>
      quadLt ((fun _ => 0) r1.contig, r1.start, r1.stop, r1.length)
             ((fun _ => 0) r2.contig, r2.start, r2.stop, r2.length)) :=
  claim_c6_output_ordering
    { min_bases := 10, max_bases := 20, min_repeats := 3,
      min_repeat_length := 2, max_repeat_length := 5 }
    "c" (basesOf "CGCGCGCGCG") [⟨"c", 1, 10, "(CG)5"⟩] (fun _ => 0)
    [{ locus := ⟨"chr1", 100, 115, "(A)16"⟩, count := 3, is_normal := true }]
    (by rfl)
    (by
      intro j1 hj1 j2 hj2 _
      simp only [List.mem_singleton] at hj1 hj2
      rw [hj1, hj2])

/-- Witness for C5 on a two-read instance. -/
theorem claim_c5_count_conservation_witness :
    ((rowsFor ((List.lookup (locusKey ⟨"chr1", 100, 115, "(A)16"⟩)
          (drain (worker_stage
            (query_reads [⟨false, [0], 90, 120⟩] true ⟨"chr1", 100, 115, "(A)16"⟩ ++
             query_reads [⟨false, [0], 99, 116⟩] false
               ⟨"chr1", 100, 115, "(A)16"⟩))).key_to_locus).getD default)
        ((List.lookup (locusKey ⟨"chr1", 100, 115, "(A)16"⟩)
          (drain (worker_stage
            (query_reads [⟨false, [0], 90, 120⟩] true ⟨"chr1", 100, 115, "(A)16"⟩ ++
             query_reads [⟨false, [0], 99, 116⟩] false
               ⟨"chr1", 100, 115, "(A)16"⟩))).counter).getD [])).map
      (fun r => r.normal + r.tumor)).sum =
    ([(⟨false, [0], 90, 120⟩ : ReadRec)].filter
      (fun r => decide (Spanning r ⟨"chr1", 100, 115, "(A)16"⟩))).length +
    ([(⟨false, [0], 99, 116⟩ : ReadRec)].filter
      (fun r => decide (Spanning r ⟨"chr1", 100, 115, "(A)16"⟩))).length :=
  claim_c5_count_conservation ⟨"chr1", 100, 115, "(A)16"⟩
    [⟨false, [0], 90, 120⟩] [⟨false, [0], 99, 116⟩] _ (List.Perm.refl _)

/-! Primitivity: the `is_repeat` scan decides exactly whether the unit is a
repetition of a shorter unit. -/

/-- The spec's primitivity notion: a unit is primitive iff it is not the
concatenation of a (nonempty) shorter unit repeated at least twice. -/
def IsPrimitive (u : List Nat) : Prop :=
  ¬ ∃ (v : List Nat) (m : Nat), v ≠ [] ∧ v.length < u.length ∧ 2 ≤ m ∧
      u = (List.replicate m v).flatten

theorem pairScanGo_iff (u : List Nat) :
    ∀ (fuel i j : Nat), fuel = u.length - j →
      (pairScanGo u fuel i j = true ↔
        ∀ r, j + r < u.length → u.getD (i + r) 0 = u.getD (j + r) 0)
  | 0, i, j, hfuel => by
    constructor
    · intro _ r hr
      omega
    · intro _
      rfl
  | fuel + 1, i, j, hfuel => by
    have hj : j < u.length := by omega
    rw [pairScanGo]
    by_cases heq : u.getD i 0 = u.getD j 0
    · rw [if_pos (beq_iff_eq.mpr heq)]
      rw [pairScanGo_iff u fuel (i + 1) (j + 1) (by omega)]
      constructor
      · intro h r hr
        cases r with
        | zero => simpa using heq
        | succ r =>
          have := h r (by omega)
          have e1 : i + 1 + r = i + (r + 1) := by omega
          have e2 : j + 1 + r = j + (r + 1) := by omega
          rw [e1, e2] at this
          exact this
      · intro h r hr
        have := h (r + 1) (by omega)
        have e1 : i + 1 + r = i + (r + 1) := by omega
        have e2 : j + 1 + r = j + (r + 1) := by omega
        rw [e1, e2]
        exact this
    · rw [if_neg (by simpa using heq)]
      constructor
      · intro h
        cases h
      · intro h
        exact absurd (by simpa using h 0 (by omega)) heq

theorem pairScan_iff (u : List Nat) (d : Nat) :
    pairScan u 0 d = true ↔
      ∀ r, d + r < u.length → u.getD r 0 = u.getD (d + r) 0 := by
  rw [pairScan, pairScanGo_iff u (u.length - d) 0 d rfl]
  constructor
  · intro h r hr
    simpa using h r hr
  · intro h r hr
    simpa using h r hr

theorem is_repeatAux_true_intro (u : List Nat) :
    ∀ (K d : Nat), 1 ≤ d → d ≤ K → u.length % d = 0 → pairScan u 0 d = true →
      is_repeatAux u K = true
  | 0, d, h1, h2, _, _ => by omega
  | K + 1, d, h1, h2, h3, h4 => by
    rw [is_repeatAux]
    by_cases hK : u.length % (K + 1) == 0 && pairScan u 0 (K + 1)
    · rw [if_pos hK]
    · rw [if_neg hK]
      have hd : d ≠ K + 1 := by
        rintro rfl
        exact hK (by simp [h3, h4])
      exact is_repeatAux_true_intro u K d h1 (by omega) h3 h4

theorem is_repeatAux_true_elim (u : List Nat) :
    ∀ K : Nat, is_repeatAux u K = true →
      ∃ d, 1 ≤ d ∧ d ≤ K ∧ u.length % d = 0 ∧ pairScan u 0 d = true
  | 0, h => by cases h
  | K + 1, h => by
    rw [is_repeatAux] at h
    by_cases hK : u.length % (K + 1) == 0 && pairScan u 0 (K + 1)
    · rcases Bool.and_eq_true_iff.mp hK with ⟨hm, hp⟩
      exact ⟨K + 1, by omega, Nat.le_refl _, by simpa using hm, hp⟩
    · rw [if_neg hK] at h
      rcases is_repeatAux_true_elim u K h with ⟨d, h1, h2, h3, h4⟩
      exact ⟨d, h1, by omega, h3, h4⟩

/-- Shift-periodicity propagates: every index reads the same base as its
residue modulo the period. -/
theorem period_mod (u : List Nat) (d : Nat) (hd : 0 < d)
    (hper : ∀ r, d + r < u.length → u.getD r 0 = u.getD (d + r) 0) :
    ∀ m, m < u.length → u.getD m 0 = u.getD (m % d) 0 := by
  intro m
  induction m using Nat.strong_induction_on with
  | _ m ih =>
    intro hm
    by_cases hlt : m < d
    · rw [Nat.mod_eq_of_lt hlt]
    · have hge : d ≤ m := by omega
      have h1 : u.getD (m - d) 0 = u.getD m 0 := by
        have := hper (m - d) (by omega)
        rw [show d + (m - d) = m by omega] at this
        exact this
      have h2 := ih (m - d) (by omega) (by omega)
      have h3 : (m - d) % d = m % d := by
        conv_rhs => rw [show m = m - d + d by omega]
        rw [Nat.add_mod_right]
      rw [← h1, h2, h3]

theorem getD_flatten_replicate (v : List Nat) (hv : 0 < v.length) :
    ∀ (m i : Nat), i < m * v.length →
      ((List.replicate m v).flatten).getD i 0 = v.getD (i % v.length) 0
  | 0, i, hi => by omega
  | m + 1, i, hi => by
    rw [List.replicate_succ, List.flatten_cons]
    by_cases hlt : i < v.length
    · rw [List.getD_eq_getElem?_getD, List.getElem?_append_left hlt,
        Nat.mod_eq_of_lt hlt, List.getD_eq_getElem?_getD]
    · have hge : v.length ≤ i := by omega
      have hrec := getD_flatten_replicate v hv m (i - v.length) (by
        have h2 : (m + 1) * v.length = m * v.length + v.length := by ring
        omega)
      rw [List.getD_eq_getElem?_getD, List.getElem?_append_right hge]
      rw [List.getD_eq_getElem?_getD] at hrec
      rw [hrec, show (i - v.length) % v.length = i % v.length by
        conv_rhs => rw [show i = i - v.length + v.length by omega]
        rw [Nat.add_mod_right]]

/-- A list that reads `u` periodically decomposes into whole copies of `u`
followed by a partial copy. -/
theorem periodic_decomp :
    ∀ (n : Nat) (w u : List Nat), w.length = n → 0 < u.length →
      (∀ m, m < w.length → w.getD m 0 = u.getD (m % u.length) 0) →
      w = (List.replicate (w.length / u.length) u).flatten ++
        u.take (w.length % u.length) := by
  intro n
  induction n using Nat.strong_induction_on with
  | _ n ih =>
    intro w u hlen hu hper
    by_cases hsmall : w.length < u.length
    · rw [Nat.div_eq_of_lt hsmall, Nat.mod_eq_of_lt hsmall]
      simp only [List.replicate, List.flatten_nil, List.nil_append]
      refine List.ext_getElem (by simp [List.length_take]; omega) ?_
      intro m hm1 hm2
      have h1 := hper m (by omega)
      rw [Nat.mod_eq_of_lt (by omega)] at h1
      have e1 : w.getD m 0 = w[m] := List.getD_eq_getElem w 0 hm1
      have e2 : u.getD m 0 = u[m] := List.getD_eq_getElem u 0 (by omega)
      have e3 : (u.take w.length)[m] = u[m] := by
        rw [← Option.some_inj, ← List.getElem?_eq_getElem,
          ← List.getElem?_eq_getElem, List.getElem?_take_of_lt (by omega)]
      rw [e3, ← e1, ← e2, h1]
    · have hge : u.length ≤ w.length := by omega
      have htd : w = w.take u.length ++ w.drop u.length :=
        (List.take_append_drop _ _).symm
      have hhead : w.take u.length = u := by
        refine List.ext_getElem (by simp; omega) ?_
        intro m hm1 hm2
        have h1 := hper m (by omega)
        rw [Nat.mod_eq_of_lt (by omega)] at h1
        have e1 : (w.take u.length)[m] = w[m] := by
          rw [← Option.some_inj, ← List.getElem?_eq_getElem,
            ← List.getElem?_eq_getElem, List.getElem?_take_of_lt (by omega)]
        rw [e1, ← List.getD_eq_getElem w 0, ← List.getD_eq_getElem u 0, h1]
      have hdroplen : (w.drop u.length).length = w.length - u.length := by simp
      have hdropper : ∀ m, m < (w.drop u.length).length →
          (w.drop u.length).getD m 0 = u.getD (m % u.length) 0 := by
        intro m hm
        have e1 : (w.drop u.length).getD m 0 = w.getD (u.length + m) 0 := by
          rw [List.getD_eq_getElem?_getD, List.getD_eq_getElem?_getD,
            List.getElem?_drop]
        have h1 := hper (u.length + m) (by omega)
        rw [e1, h1, Nat.add_comm u.length m, Nat.add_mod_right]
      have hrec := ih (w.length - u.length) (by omega) (w.drop u.length) u
        (by omega) hu hdropper
      rw [hdroplen] at hrec
      have hdiv : w.length / u.length = (w.length - u.length) / u.length + 1 := by
        rw [Nat.div_eq_sub_div hu hge]
      have hmod : w.length % u.length = (w.length - u.length) % u.length := by
        rw [Nat.mod_eq_sub_mod hge]
      calc w = w.take u.length ++ w.drop u.length := htd
        _ = u ++ ((List.replicate ((w.length - u.length) / u.length) u).flatten
              ++ u.take ((w.length - u.length) % u.length)) := by
            rw [hhead, ← hrec]
        _ = (List.replicate (w.length / u.length) u).flatten ++
              u.take (w.length % u.length) := by
            rw [hdiv, hmod, List.replicate_succ, List.flatten_cons,
              List.append_assoc]

/-- The `is_repeat` scan returns `true` exactly on non-primitive units. -/
theorem is_repeat_iff (u : List Nat) :
    is_repeat u = true ↔ ¬ IsPrimitive u := by
  constructor
  · intro h
    rw [is_repeat] at h
    have hk0 : ∃ K, is_repeatAux u K = true ∧ K ≤ u.length / 2 := by
      by_cases hz : u.length / 2 == u.length
      · exact ⟨u.length - 1, by simpa [hz] using h, by
          have : u.length = 0 := by
            have := beq_iff_eq.mp hz
            omega
          omega⟩
      · exact ⟨u.length / 2, by simpa [hz] using h, Nat.le_refl _⟩
    rcases hk0 with ⟨K, hK, hKle⟩
    rcases is_repeatAux_true_elim u K hK with ⟨d, h1, h2, h3, h4⟩
    rw [IsPrimitive, not_not]
    have hdlen : d ≤ u.length / 2 := by omega
    have hper := (pairScan_iff u d).mp h4
    have hmod := period_mod u d (by omega) hper
    have hdec := periodic_decomp u.length u (u.take d) rfl
      (by simpa [List.length_take] using by omega)
      (by
        intro m hm
        have e1 : (u.take d).length = d := by
          rw [List.length_take]
          omega
        rw [e1]
        have h5 := hmod m hm
        have e2 : (u.take d).getD (m % d) 0 = u.getD (m % d) 0 := by
          rw [List.getD_eq_getElem?_getD, List.getD_eq_getElem?_getD,
            List.getElem?_take_of_lt (Nat.mod_lt _ (by omega))]
        rw [e2, h5])
    have e1 : (u.take d).length = d := by
      rw [List.length_take]
      omega
    rw [e1, h3] at hdec
    refine ⟨u.take d, u.length / d, ?_, ?_, ?_, ?_⟩
    · intro hnil
      have := congrArg List.length hnil
      simp [e1] at this
      omega
    · rw [e1]
      have : 2 * d ≤ u.length := by
        have := Nat.div_mul_le_self u.length 2
        omega
      omega
    · have hdd : d ∣ u.length := Nat.dvd_of_mod_eq_zero h3
      rcases hdd with ⟨c, hc⟩
      have : 2 ≤ c := by
        rcases Nat.lt_or_ge c 2 with hc2 | hc2
        · interval_cases c <;> omega
        · exact hc2
      rw [hc, Nat.mul_div_cancel_left c (by omega)]
      exact this
    · simpa using hdec
  · intro h
    rw [IsPrimitive, not_not] at h
    rcases h with ⟨v, m, hv, hvlt, hm, hu⟩
    have hvlen : 0 < v.length := List.length_pos.mpr hv
    have hulen : u.length = m * v.length := by
      rw [hu]
      simp [List.length_flatten, List.map_replicate, List.sum_replicate,
        smul_eq_mul]
    have hper : ∀ r, v.length + r < u.length →
        u.getD r 0 = u.getD (v.length + r) 0 := by
      intro r hr
      rw [hu, getD_flatten_replicate v hvlen m r (by omega),
        getD_flatten_replicate v hvlen m (v.length + r) (by omega),
        Nat.add_comm v.length r, Nat.add_mod_right]
    have hscan : pairScan u 0 v.length = true := (pairScan_iff u v.length).mpr hper
    have hmod : u.length % v.length = 0 := by
      rw [hulen]
      exact Nat.mul_mod_left _ _
    have hlen2 : 2 * v.length ≤ u.length := by
      rw [hulen]
      have := Nat.mul_le_mul_right v.length hm
      omega
    rw [is_repeat]
    have hk0 : (u.length / 2 == u.length) = false := by
      rw [beq_eq_false_iff_ne]
      intro hc
      have := Nat.div_le_self u.length 2
      have h2 : u.length / 2 < u.length := Nat.div_lt_self (by omega) (by omega)
      omega
    simp only [hk0, if_false]
    refine is_repeatAux_true_intro u (u.length / 2) v.length (by omega) ?_ hmod hscan
    omega

/-- C1: a record is emitted exactly when every gate passes: the emitted
span lies in `[min_bases, max_bases]`, `⌊span/k⌋ ≥ min_repeats`, and the
unit is primitive; a repeat failing any gate yields no record. -/
theorem claim_c1_emission_gates (opts : Opts) (contig : String)
    (position : Nat) (finder : KmerFinder) (rep : Repeat) :
    (∀ rec, to_bed_record opts contig position finder rep = some rec →
      opts.min_bases ≤ rep.span ∧ rep.span ≤ opts.max_bases ∧
      opts.min_repeats ≤ rep.span / finder.len ∧ IsPrimitive rep.kmer) ∧
    ((rep.span < opts.min_bases ∨ opts.max_bases < rep.span ∨
      rep.span / finder.len < opts.min_repeats ∨ ¬ IsPrimitive rep.kmer) →
      to_bed_record opts contig position finder rep = none) := by
  constructor
  · intro rec h
    have hg := (to_bed_record_some h).2.2.2.2
    simp only [Bool.or_eq_false_iff, decide_eq_false_iff_not, Nat.not_lt] at hg
    obtain ⟨⟨⟨h1, h2⟩, h3⟩, h4⟩ := hg
    refine ⟨h1, h2, h3, ?_⟩
    by_contra hnp
    exact absurd ((is_repeat_iff rep.kmer).mpr hnp) (by rw [h4]; simp)
  · intro h
    rw [to_bed_record, if_pos]
    rcases h with h | h | h | h
    · simp [h]
    · simp [h]
    · simp [h]
    · simp [(is_repeat_iff rep.kmer).mpr h]

/-- Witness for C1 at the `(CG)5` repeat emitted at position 11. -/
theorem claim_c1_emission_gates_witness :
    10 ≤ 10 ∧ 10 ≤ 20 ∧ 3 ≤ 10 / (KmerFinder.new 2).len ∧
      IsPrimitive [67, 71] :=
  (claim_c1_emission_gates
    { min_bases := 10, max_bases := 20, min_repeats := 3,
      min_repeat_length := 2, max_repeat_length := 5 }
    "c" 11 (KmerFinder.new 2) ⟨[67, 71], 5, 10⟩).1
    ⟨"c", 1, 10, "(CG)5"⟩ (by rfl)

/-! The single-finder scan and its invariant, leading to the unit
reconstruction round-trip. -/

/-- The state of one finder after ingesting a base list (the emission flag
does not affect the state, `add_state_indep`). -/
def scanF (f : KmerFinder) (bs : List Nat) : KmerFinder :=
  bs.foldl (fun f b => (f.add_maybe_emit b true).1) f

theorem scanF_nil (f : KmerFinder) : scanF f [] = f := rfl

theorem scanF_cons (f : KmerFinder) (b : Nat) (bs : List Nat) :
    scanF f (b :: bs) = scanF (f.add_maybe_emit b true).1 bs := rfl

theorem scanF_append_one (f : KmerFinder) (bs : List Nat) (b : Nat) :
    scanF f (bs ++ [b]) = ((scanF f bs).add_maybe_emit b true).1 := by
  rw [scanF, List.foldl_append]
  rfl

/-- Cyclic index increment of `add_maybe_emit` is addition modulo `k`. -/
theorem stepIdx_eq_mod (i k : Nat) (hk : 1 ≤ k) (hi : i < k) :
    (if i == k - 1 then 0 else i + 1) = (i + 1) % k := by
  by_cases h : i = k - 1
  · rw [if_pos (beq_iff_eq.mpr h), h, show k - 1 + 1 = k by omega, Nat.mod_self]
  · rw [if_neg (by simpa using h), Nat.mod_eq_of_lt (by omega)]

theorem add_len (f : KmerFinder) (b : Nat) (e : Bool) :
    (f.add_maybe_emit b e).1.kmer.length = f.kmer.length := by
  unfold KmerFinder.add_maybe_emit
  split_ifs <;> simp [KmerFinder.len]

/-- Branch A of `add_maybe_emit`: the buffer is still filling. -/
theorem add_branch_fill (f : KmerFinder) (b : Nat) (e : Bool)
    (h : f.span < f.kmer.length) :
    (f.add_maybe_emit b e).1 =
      { kmer := f.kmer.set f.index b,
        index := if f.index == f.kmer.length - 1 then 0 else f.index + 1,
        span := f.span + 1 } := by
  unfold KmerFinder.add_maybe_emit
  rw [if_pos (show f.span < f.len from h)]
  simp [KmerFinder.len]

/-- Branch B of `add_maybe_emit`: the base matches the expectation. -/
theorem add_branch_match (f : KmerFinder) (b : Nat) (e : Bool)
    (h : ¬ f.span < f.kmer.length) (hm : f.kmer.getD f.index 0 = b) :
    (f.add_maybe_emit b e).1 =
      { kmer := f.kmer,
        index := if f.index == f.kmer.length - 1 then 0 else f.index + 1,
        span := f.span + 1 } := by
  unfold KmerFinder.add_maybe_emit
  rw [if_neg (show ¬ f.span < f.len from h), if_pos (beq_iff_eq.mpr hm)]
  rfl

/-- Branch C of `add_maybe_emit`: the base breaks the repeat. -/
theorem add_branch_break (f : KmerFinder) (b : Nat) (e : Bool)
    (h : ¬ f.span < f.kmer.length) (hm : f.kmer.getD f.index 0 ≠ b) :
    (f.add_maybe_emit b e).1 =
      { kmer := f.kmer.set f.index b,
        index := if f.index == f.kmer.length - 1 then 0 else f.index + 1,
        span := f.kmer.length - 1 + 1 } := by
  unfold KmerFinder.add_maybe_emit
  rw [if_neg (show ¬ f.span < f.len from h), if_neg (by simpa using hm)]
  simp [KmerFinder.len]

/-- On a break with the flag on, the returned repeat is the pre-state's
`emit`. -/
theorem add_some_emit {f : KmerFinder} {b : Nat} {rep : Repeat}
    (h : (f.add_maybe_emit b true).2 = some rep) : f.emit = some rep := by
  unfold KmerFinder.add_maybe_emit at h
  by_cases h1 : f.span < f.len
  · rw [if_pos h1] at h
    exact Option.noConfusion h
  · rw [if_neg h1] at h
    by_cases h2 : (f.kmer.getD f.index 0 == b) = true
    · rw [if_pos h2] at h
      exact Option.noConfusion h
    · rw [if_neg h2] at h
      exact h

/-- Invariant of a single scan: buffer length, cyclic index, span bounds,
the buffer mirroring the last `k` bases, and periodicity of the current
window. -/
def ScanInv (k : Nat) (bs : List Nat) (f : KmerFinder) : Prop :=
  f.kmer.length = k ∧
  f.index = bs.length % k ∧
  (bs.length < k → f.span = bs.length) ∧
  (k ≤ bs.length → k ≤ f.span ∧ f.span ≤ bs.length) ∧
  (∀ p, p < bs.length → bs.length ≤ p + k →
    f.kmer.getD (p % k) 0 = bs.getD p 0) ∧
  (∀ j, bs.length - f.span ≤ j → j + k < bs.length →
    bs.getD j 0 = bs.getD (j + k) 0)

theorem scanInv_nil (k : Nat) (hk : 1 ≤ k) :
    ScanInv k [] (KmerFinder.new k) := by
  refine ⟨by simp [KmerFinder.new], by simp [KmerFinder.new], ?_, ?_, ?_, ?_⟩
  · intro _
    rfl
  · intro h
    simp at h
    omega
  · intro p h1 _
    simp at h1
  · intro j _ h2
    simp at h2

theorem getD_append_lt (bs : List Nat) (b : Nat) (p : Nat)
    (h : p < bs.length) : (bs ++ [b]).getD p 0 = bs.getD p 0 := by
  rw [List.getD_eq_getElem?_getD, List.getD_eq_getElem?_getD,
    List.getElem?_append_left h]

theorem getD_append_self (bs : List Nat) (b : Nat) :
    (bs ++ [b]).getD bs.length 0 = b := by
  rw [List.getD_eq_getElem?_getD, List.getElem?_append_right (Nat.le_refl _),
    Nat.sub_self]
  rfl

theorem mod_ne_of_between (p t k : Nat) (_hk : 0 < k) (h1 : p < t)
    (h2 : t < p + k) : ¬ p % k = t % k := by
  intro he
  have hdvd : k ∣ t - p := (Nat.modEq_iff_dvd' (by omega)).mp he
  have := Nat.le_of_dvd (by omega) hdvd
  omega

theorem scanInv_step (k : Nat) (hk : 1 ≤ k) (bs : List Nat) (b : Nat)
    (f : KmerFinder) (hinv : ScanInv k bs f) :
    ScanInv k (bs ++ [b]) ((f.add_maybe_emit b true).1) := by
  obtain ⟨hlen, hidx, hsp1, hsp2, hbuf, hwin⟩ := hinv
  have hidxlt : f.index < k := by
    rw [hidx]
    exact Nat.mod_lt _ (by omega)
  have hstep : (if f.index == f.kmer.length - 1 then 0 else f.index + 1) =
      (bs.length + 1) % k := by
    rw [hlen, stepIdx_eq_mod f.index k hk hidxlt, hidx, Nat.mod_add_mod]
  have hlen' : (bs ++ [b]).length = bs.length + 1 := by simp
  by_cases hA : f.span < f.kmer.length
  · -- branch A: buffer still filling
    have htlt : bs.length < k := by
      by_contra hge
      have := (hsp2 (by omega)).1
      omega
    have hspan : f.span = bs.length := hsp1 htlt
    rw [add_branch_fill f b true hA]
    refine ⟨by simpa using hlen, by simpa using hstep, ?_, ?_, ?_, ?_⟩
    · intro _
      simpa using hspan
    · intro h
      rw [hlen'] at h
      constructor
      · simp only
        omega
      · simp only [hlen']
        omega
    · intro p hp1 hp2
      rw [hlen'] at hp1 hp2
      by_cases hpt : p = bs.length
      · subst hpt
        rw [getD_append_self, ← hidx, List.getD_eq_getElem?_getD,
          List.getElem?_set_self (by omega), Option.getD_some]
      · have hplt : p < bs.length := by omega
        rw [getD_append_lt _ _ _ hplt]
        have hne : ¬ f.index = p % k := by
          rw [hidx]
          intro he
          exact mod_ne_of_between p bs.length k (by omega) hplt (by omega) he.symm
        rw [List.getD_eq_getElem?_getD, List.getElem?_set_ne hne,
          ← List.getD_eq_getElem?_getD]
        exact hbuf p hplt (by omega)
    · intro j hj1 hj2
      rw [hlen'] at hj2
      omega
  · -- the repeat is already at least k long
    have htge : k ≤ bs.length := by
      by_contra hlt
      have := hsp1 (by omega)
      rw [hlen] at hA
      omega
    have hsple : f.span ≤ bs.length := (hsp2 htge).2
    have hspge : k ≤ f.span := (hsp2 htge).1
    by_cases hB : f.kmer.getD f.index 0 = b
    · -- branch B: the base continues the repeat
      rw [add_branch_match f b true hA hB]
      refine ⟨by simpa using hlen, by simpa using hstep, ?_, ?_, ?_, ?_⟩
      · intro h
        rw [hlen'] at h
        omega
      · intro _
        simp only [hlen']
        omega
      · intro p hp1 hp2
        rw [hlen'] at hp1 hp2
        by_cases hpt : p = bs.length
        · subst hpt
          rw [getD_append_self, ← hidx]
          exact hB
        · have hplt : p < bs.length := by omega
          rw [getD_append_lt _ _ _ hplt]
          exact hbuf p hplt (by omega)
      · intro j hj1 hj2
        rw [hlen'] at hj2
        simp only [hlen'] at hj1
        have hj1' : bs.length - f.span ≤ j := by omega
        by_cases hjt : j + k = bs.length
        · -- the new pair: the fresh base matches k back
          have hbufeq := hbuf (bs.length - k) (by omega) (by omega)
          have hmodeq : (bs.length - k) % k = bs.length % k := by
            conv_rhs => rw [show bs.length = bs.length - k + k by omega]
            rw [Nat.add_mod_right]
          rw [hmodeq, ← hidx] at hbufeq
          have hj : j = bs.length - k := by omega
          rw [hj, show bs.length - k + k = bs.length by omega,
            getD_append_lt _ _ _ (by omega), getD_append_self, ← hbufeq, hB]
        · have hjlt : j + k < bs.length := by omega
          rw [getD_append_lt _ _ _ (by omega), getD_append_lt _ _ _ hjlt]
          exact hwin j hj1' hjlt
    · -- branch C: the base breaks the repeat
      rw [add_branch_break f b true hA hB]
      refine ⟨by simpa using hlen, by simpa using hstep, ?_, ?_, ?_, ?_⟩
      · intro h
        rw [hlen'] at h
        omega
      · intro _
        simp only [hlen', hlen]
        omega
      · intro p hp1 hp2
        rw [hlen'] at hp1 hp2
        by_cases hpt : p = bs.length
        · subst hpt
          rw [getD_append_self, ← hidx, List.getD_eq_getElem?_getD,
            List.getElem?_set_self (by omega), Option.getD_some]
        · have hplt : p < bs.length := by omega
          rw [getD_append_lt _ _ _ hplt]
          have hne : ¬ f.index = p % k := by
            rw [hidx]
            intro he
            exact mod_ne_of_between p bs.length k (by omega) hplt (by omega) he.symm
          rw [List.getD_eq_getElem?_getD, List.getElem?_set_ne hne,
            ← List.getD_eq_getElem?_getD]
          exact hbuf p hplt (by omega)
      · intro j hj1 hj2
        simp only [hlen', hlen] at hj1 hj2
        omega

theorem scanInv (k : Nat) (hk : 1 ≤ k) :
    ∀ bs : List Nat, ScanInv k bs (scanF (KmerFinder.new k) bs) := by
  intro bs
  induction bs using List.reverseRecOn with
  | nil => exact scanInv_nil k hk
  | append_singleton bs b ih =>
    rw [scanF_append_one]
    exact scanInv_step k hk bs b _ ih

/-- Positions congruent modulo `k` inside the current window read the same
base. -/
theorem windowEq_mul (k : Nat) (bs : List Nat) (f : KmerFinder)
    (hwin : ∀ j, bs.length - f.span ≤ j → j + k < bs.length →
      bs.getD j 0 = bs.getD (j + k) 0) :
    ∀ (c a : Nat), bs.length - f.span ≤ a → a + c * k < bs.length →
      bs.getD a 0 = bs.getD (a + c * k) 0
  | 0, a, _, _ => by simp
  | c + 1, a, ha, hac => by
    have hck : (c + 1) * k = c * k + k := by ring
    have h1 : bs.getD a 0 = bs.getD (a + k) 0 :=
      hwin a ha (by omega)
    have h2 := windowEq_mul k bs f hwin c (a + k) (by omega) (by omega)
    rw [h1, h2, show a + k + c * k = a + (c + 1) * k by omega]

/-- Symmetric window equality: equal residues, equal bases. -/
theorem windowEq (k : Nat) (_hk : 1 ≤ k) (bs : List Nat) (f : KmerFinder)
    (hwin : ∀ j, bs.length - f.span ≤ j → j + k < bs.length →
      bs.getD j 0 = bs.getD (j + k) 0)
    (a a2 : Nat) (ha1 : bs.length - f.span ≤ a) (ha2 : a < bs.length)
    (hb1 : bs.length - f.span ≤ a2) (hb2 : a2 < bs.length)
    (hmod : a % k = a2 % k) : bs.getD a 0 = bs.getD a2 0 := by
  rcases Nat.le_total a a2 with hle | hle
  · have hdvd : k ∣ a2 - a := (Nat.modEq_iff_dvd' hle).mp hmod
    rcases hdvd with ⟨c, hc⟩
    have := windowEq_mul k bs f hwin c a ha1 (by
      rw [Nat.mul_comm] at hc
      omega)
    rw [this]
    congr 1
    rw [Nat.mul_comm] at hc
    omega
  · have hdvd : k ∣ a - a2 := (Nat.modEq_iff_dvd' hle).mp hmod.symm
    rcases hdvd with ⟨c, hc⟩
    have := windowEq_mul k bs f hwin c a2 hb1 (by
      rw [Nat.mul_comm] at hc
      omega)
    rw [this]
    congr 1
    rw [Nat.mul_comm] at hc
    omega

theorem cyclicCopy_length (buf : List Nat) (j : Nat) :
    (KmerFinder.cyclicCopy buf j).length = buf.length := by
  simp [KmerFinder.cyclicCopy]

theorem cyclicCopy_getD (buf : List Nat) (j o : Nat) (h : o < buf.length) :
    (KmerFinder.cyclicCopy buf j).getD o 0 =
      buf.getD ((j + o) % buf.length) 0 := by
  rw [KmerFinder.cyclicCopy, List.getD_eq_getElem?_getD, List.getElem?_map,
    List.getElem?_range h]
  simp

theorem cyclicCopy_eq_rotate (buf : List Nat) (j : Nat)
    (hbuf : 0 < buf.length) :
    KmerFinder.cyclicCopy buf j = buf.rotate j := by
  refine List.ext_getElem (by simp [cyclicCopy_length]) ?_
  intro o h1 h2
  have ho : o < buf.length := by simpa [cyclicCopy_length] using h1
  have hc := cyclicCopy_getD buf j o ho
  rw [List.getD_eq_getElem?_getD, List.getElem?_eq_getElem h1] at hc
  have hr : (buf.rotate j)[o]? = buf[(o + j) % buf.length]? :=
    List.getElem?_rotate ho
  rw [List.getElem?_eq_getElem h2] at hr
  have hmlt : (o + j) % buf.length < buf.length := Nat.mod_lt _ hbuf
  rw [List.getElem?_eq_getElem hmlt] at hr
  have : buf.getD ((j + o) % buf.length) 0 = buf[(o + j) % buf.length] := by
    rw [Nat.add_comm j o, List.getD_eq_getElem?_getD,
      List.getElem?_eq_getElem hmlt]
    rfl
  rw [this] at hc
  simp only [Option.getD_some] at hc
  have hr2 := Option.some_inj.mp hr
  rw [hc, hr2]

/-- Characterization of a successful `emit`. -/
theorem emit_some_elim {f : KmerFinder} {rep : Repeat}
    (h : f.emit = some rep) :
    f.kmer.length ≤ f.span ∧
    rep.kmer = KmerFinder.cyclicCopy f.kmer
      (if f.span % f.kmer.length ≤ f.index then f.index - f.span % f.kmer.length
       else f.index + f.kmer.length - f.span % f.kmer.length) ∧
    rep.num_repeats = f.span / f.kmer.length ∧ rep.span = f.span := by
  unfold KmerFinder.emit at h
  by_cases h1 : f.span < f.len
  · rw [if_pos h1] at h
    exact Option.noConfusion h
  · rw [if_neg h1] at h
    have h2 := Option.some_inj.mp h
    refine ⟨by simpa [KmerFinder.len] using h1, ?_, ?_, ?_⟩
    · rw [← h2]
      rfl
    · rw [← h2]
      rfl
    · rw [← h2]

/-- The conditional rotation offset of `emit` equals
`(index + k − span % k) % k`. -/
theorem emit_offset_eq (idx rem k : Nat) (hk : 1 ≤ k) (hidx : idx < k)
    (hrem : rem < k) :
    (if rem ≤ idx then idx - rem else idx + k - rem) = (idx + k - rem) % k := by
  by_cases h : rem ≤ idx
  · rw [if_pos h]
    have : idx + k - rem = (idx - rem) + k := by omega
    rw [this, Nat.add_mod_right, Nat.mod_eq_of_lt (by omega)]
  · rw [if_neg h, Nat.mod_eq_of_lt (by omega)]

/-- Core of C2: whenever the scanned finder emits, the emitted unit is the
buffer rotated by the documented offset, the repeat count is `⌊span/k⌋`,
and the scanned window decomposes into whole copies of the unit followed by
its prefix. -/
theorem scan_emit_spec (k : Nat) (hk : 1 ≤ k) (bs : List Nat) (rep : Repeat)
    (h : (scanF (KmerFinder.new k) bs).emit = some rep) :
    k ≤ rep.span ∧ rep.span ≤ bs.length ∧ rep.kmer.length = k ∧
    rep.num_repeats = rep.span / k ∧
    rep.kmer = (scanF (KmerFinder.new k) bs).kmer.rotate
      (((scanF (KmerFinder.new k) bs).index + k - rep.span % k) % k) ∧
    bs.drop (bs.length - rep.span) =
      (List.replicate (rep.span / k) rep.kmer).flatten ++
        rep.kmer.take (rep.span % k) := by
  obtain ⟨hlen, hidx, hsp1, hsp2, hbuf, hwin⟩ := scanInv k hk bs
  set f := scanF (KmerFinder.new k) bs with hf
  obtain ⟨hsple, hkmer, hnum, hspan⟩ := emit_some_elim h
  rw [hlen] at hsple hkmer hnum
  have hidxlt : f.index < k := by
    rw [hidx]
    exact Nat.mod_lt _ (by omega)
  have hremlt : f.span % k < k := Nat.mod_lt _ (by omega)
  have htge : k ≤ bs.length := by
    by_contra hlt
    have := hsp1 (by omega)
    omega
  have hsp3 := hsp2 htge
  have hofs := emit_offset_eq f.index (f.span % k) k hk hidxlt hremlt
  rw [hofs] at hkmer
  set j0 := (f.index + k - f.span % k) % k with hj0
  have hj0lt : j0 < k := Nat.mod_lt _ (by omega)
  -- key congruence: j0 + span ≡ index ≡ bs.length (mod k)
  have hF1 : (j0 + f.span % k) % k = f.index := by
    rw [hj0, Nat.mod_add_mod,
      show f.index + k - f.span % k + f.span % k = f.index + k by omega,
      Nat.add_mod_right, Nat.mod_eq_of_lt hidxlt]
  refine ⟨by omega, by omega, ?_, by rw [hnum, hspan], ?_, ?_⟩
  · rw [hkmer, cyclicCopy_length, hlen]
  · rw [hkmer, hspan, hj0]
    exact cyclicCopy_eq_rotate f.kmer _ (by rw [hlen]; omega)
  · -- the round trip through the window
    have hwlen : (bs.drop (bs.length - rep.span)).length = rep.span := by
      rw [List.length_drop]
      omega
    have hpoint : ∀ m, m < (bs.drop (bs.length - rep.span)).length →
        (bs.drop (bs.length - rep.span)).getD m 0 =
          rep.kmer.getD (m % rep.kmer.length) 0 := by
      intro m hm
      rw [hwlen] at hm
      have hklen : rep.kmer.length = k := by
        rw [hkmer, cyclicCopy_length, hlen]
      rw [hklen]
      have hmk : m % k < k := Nat.mod_lt _ (by omega)
      have hrh : rep.kmer.getD (m % k) 0 =
          f.kmer.getD ((j0 + m % k) % k) 0 := by
        rw [hkmer, cyclicCopy_getD _ _ _ (by rw [hlen]; omega), hlen]
      -- the window position read by ref, and its in-buffer representative
      set a := bs.length - rep.span + m with hadef
      have hlh : (bs.drop (bs.length - rep.span)).getD m 0 = bs.getD a 0 := by
        rw [List.getD_eq_getElem?_getD, List.getD_eq_getElem?_getD,
          List.getElem?_drop]
      set D := a + rep.span * k with hD
      have hDge : bs.length - k ≤ D := by
        have : rep.span ≤ rep.span * k := Nat.le_mul_of_pos_right _ (by omega)
        omega
      set p := bs.length - k + ((D - (bs.length - k)) % k) with hp
      have hplt : p < bs.length := by
        have : (D - (bs.length - k)) % k < k := Nat.mod_lt _ (by omega)
        omega
      have hpge : bs.length - k ≤ p := by omega
      have hpmod : p % k = a % k := by
        rw [hp, Nat.add_mod_mod,
          show bs.length - k + (D - (bs.length - k)) = D by omega, hD,
          Nat.add_mul_mod_self_right]
      -- a ≡ j0 + m (mod k)
      have hamod : a % k = (j0 + m) % k := by
        have e1 : (a + f.span % k) % k = (a + f.span) % k :=
          Nat.add_mod_mod a f.span k
        have e2 : (a + f.span) % k = (bs.length + m) % k := by
          congr 1
          rw [hadef, hspan]
          omega
        have e3 : (j0 + m + f.span % k) % k = (bs.length + m) % k := by
          rw [show j0 + m + f.span % k = j0 + f.span % k + m by omega,
            ← Nat.mod_add_mod, hF1, hidx, Nat.mod_add_mod]
        have : (a + f.span % k) % k = (j0 + m + f.span % k) % k := by
          rw [e1, e2, ← e3]
        exact Nat.ModEq.add_right_cancel' (f.span % k) this
      have hq : (j0 + m % k) % k = p % k := by
        rw [Nat.add_mod_mod, hpmod, hamod]
      -- chain everything together
      have hbufp : f.kmer.getD (p % k) 0 = bs.getD p 0 :=
        hbuf p hplt (by omega)
      have hwineq : bs.getD a 0 = bs.getD p 0 := by
        refine windowEq k hk bs f hwin a p ?_ ?_ ?_ hplt (by rw [hpmod])
        · omega
        · omega
        · omega
      rw [hlh, hrh, hq, hbufp, hwineq]
    have := periodic_decomp (bs.drop (bs.length - rep.span)).length
      (bs.drop (bs.length - rep.span)) rep.kmer rfl
      (by rw [hkmer, cyclicCopy_length, hlen]; omega) hpoint
    rw [hwlen] at this
    rw [this]
    have hklen : rep.kmer.length = k := by
      rw [hkmer, cyclicCopy_length, hlen]
    rw [hklen, hspan]

/-- A scan does not change the buffer length. -/
theorem scanF_len : ∀ (bs : List Nat) (f : KmerFinder),
    (scanF f bs).kmer.length = f.kmer.length
  | [], _ => rfl
  | b :: bs, f => by
    rw [scanF_cons, scanF_len bs _, add_len]

/-- `to_bed_record` reads its finder only through the unit length. -/
theorem to_bed_record_len_congr (opts : Opts) (contig : String) (p : Nat)
    {f1 f2 : KmerFinder} (h : f1.kmer.length = f2.kmer.length)
    (rep : Repeat) :
    to_bed_record opts contig p f1 rep = to_bed_record opts contig p f2 rep := by
  unfold to_bed_record KmerFinder.len
  rw [h]

/-- The bank state after a partial scan is each finder scanned over the
uppercased prefix. -/
theorem scanContig_state (opts : Opts) (contig : String) :
    ∀ (bs : List Nat) (i : Nat) (finders : List KmerFinder),
      (scanContig opts contig i finders bs).1 =
        finders.map (fun f => scanF f (bs.map (· &&& 0xdf)))
  | [], _, finders => by
    simp only [scanContig, List.map_nil]
    exact (List.map_id finders).symm
  | b :: bs, i, finders => by
    show (scanContig opts contig (i + 1)
      (stepBase opts contig i (b &&& 0xdf) finders false).1 bs).1 = _
    rw [scanContig_state opts contig bs (i + 1) _, stepBase_state,
      List.map_map, List.map_cons]
    refine List.map_congr_left ?_
    intro f _
    rw [Function.comp, scanF_cons]

/-- Every record written during the scan stems from one base step applied
to the bank scanned over the preceding prefix. -/
theorem scanContig_rec_elim (opts : Opts) (contig : String) :
    ∀ (bs : List Nat) (i : Nat) (finders : List KmerFinder)
      (rec : BedRecord), rec ∈ (scanContig opts contig i finders bs).2 →
      ∃ t, t < bs.length ∧
        rec ∈ (stepBase opts contig (i + t) (bs.getD t 0 &&& 0xdf)
          (finders.map (fun f => scanF f ((bs.take t).map (· &&& 0xdf))))
          false).2
  | [], _, finders, rec, h => absurd h (by simp [scanContig])
  | b :: bs, i, finders, rec, h => by
    have hsplit : (scanContig opts contig i finders (b :: bs)).2 =
        (stepBase opts contig i (b &&& 0xdf) finders false).2 ++
        (scanContig opts contig (i + 1)
          (stepBase opts contig i (b &&& 0xdf) finders false).1 bs).2 := rfl
    rw [hsplit] at h
    rcases List.mem_append.mp h with hm | hm
    · refine ⟨0, by simp, ?_⟩
      have hbank : finders.map
          (fun f => scanF f (((b :: bs).take 0).map (· &&& 0xdf))) = finders := by
        simp only [List.take_zero, List.map_nil]
        exact List.map_id finders
      rw [Nat.add_zero, hbank]
      exact hm
    · rcases scanContig_rec_elim opts contig bs (i + 1) _ rec hm with
        ⟨t, ht, hmem⟩
      refine ⟨t + 1, by simpa using Nat.succ_lt_succ ht, ?_⟩
      have hbank : (stepBase opts contig i (b &&& 0xdf) finders false).1.map
          (fun f => scanF f ((bs.take t).map (· &&& 0xdf))) =
          finders.map
            (fun f => scanF f (((b :: bs).take (t + 1)).map (· &&& 0xdf))) := by
        rw [stepBase_state, List.map_map]
        refine List.map_congr_left ?_
        intro f _
        rw [Function.comp, List.take_succ_cons, List.map_cons, scanF_cons]
      rw [hbank, show i + 1 + t = i + (t + 1) by omega] at hmem
      exact hmem

/-- Every record of one base step stems from one finder of the bank. -/
theorem stepBase_rec_elim {opts : Opts} {contig : String} {p base : Nat}
    {finders : List KmerFinder} {rec : BedRecord}
    (h : rec ∈ (stepBase opts contig p base finders false).2) :
    ∃ f ∈ finders, ∃ rep, f.emit = some rep ∧
      to_bed_record opts contig p (f.add_maybe_emit base true).1 rep =
        some rec := by
  rw [stepBase_out] at h
  cases hfs : finders.findSome? (wouldEmit opts contig p base) with
  | none => rw [hfs] at h; cases h
  | some rec0 =>
    rw [hfs] at h
    simp only [Option.toList_some, List.mem_singleton] at h
    subst h
    rcases List.exists_of_findSome?_eq_some hfs with ⟨f, hfmem, hf⟩
    rw [wouldEmit] at hf
    cases hadd : (f.add_maybe_emit base true).2 with
    | none => rw [hadd] at hf; cases hf
    | some rep =>
      rw [hadd] at hf
      exact ⟨f, hfmem, rep, add_some_emit hadd, hf⟩

/-- Every record of the flush stems from one finder of the bank. -/
theorem flushFinders_rec_elim {opts : Opts} {contig : String} {p : Nat}
    {finders : List KmerFinder} {rec : BedRecord}
    (h : rec ∈ flushFinders opts contig p finders) :
    ∃ f ∈ finders, ∃ rep, f.emit = some rep ∧
      to_bed_record opts contig p f rep = some rec := by
  rw [flushFinders_out] at h
  cases hfs : finders.findSome?
      (fun f => f.emit.bind (to_bed_record opts contig p f)) with
  | none => rw [hfs] at h; cases h
  | some rec0 =>
    rw [hfs] at h
    simp only [Option.toList_some, List.mem_singleton] at h
    subst h
    rcases List.exists_of_findSome?_eq_some hfs with ⟨f, hfmem, hf⟩
    cases hemit : f.emit with
    | none => rw [hemit] at hf; cases hf
    | some rep =>
      rw [hemit] at hf
      exact ⟨f, hfmem, rep, hemit, hf⟩

theorem finders_from_go_mem :
    ∀ (n i : Nat) (f : KmerFinder), f ∈ finders_from_go n i →
      ∃ k, i ≤ k ∧ k < i + n ∧ f = KmerFinder.new k
  | 0, _, _, h => absurd h (List.not_mem_nil _)
  | n + 1, i, f, h => by
    rcases List.mem_cons.mp h with h1 | h1
    · exact ⟨i, Nat.le_refl _, by omega, h1⟩
    · rcases finders_from_go_mem n (i + 1) f h1 with ⟨k, h2, h3, h4⟩
      exact ⟨k, by omega, by omega, h4⟩

theorem finders_from_mem {lo hi : Nat} {f : KmerFinder}
    (h : f ∈ finders_from lo hi) :
    ∃ k, lo ≤ k ∧ k ≤ hi ∧ f = KmerFinder.new k := by
  rcases finders_from_go_mem _ _ _ h with ⟨k, h1, h2, h3⟩
  refine ⟨k, h1, by omega, h3⟩

/-- Shared conclusion of the C2 round trip: from a single-finder emission
over the first `t` uppercased bases and a successful `to_bed_record` at
position `t + 1`, the rotation identity, the record fields and the
reference reconstruction all follow. -/
theorem c2_core {opts : Opts} {contig : String} {seq : List Nat} {t k : Nat}
    {rep : Repeat} {rec : BedRecord}
    (hk : 1 ≤ k) (ht : t ≤ seq.length)
    (hemit : (scanF (KmerFinder.new k)
      ((seq.take t).map (· &&& 0xdf))).emit = some rep)
    (hrecd : to_bed_record opts contig (t + 1) (KmerFinder.new k) rep =
      some rec) :
    rep.kmer.length = k ∧
    rep.kmer = (scanF (KmerFinder.new k)
        ((seq.take t).map (· &&& 0xdf))).kmer.rotate
      (((scanF (KmerFinder.new k) ((seq.take t).map (· &&& 0xdf))).index
        + k - rep.span % k) % k) ∧
    rep.num_repeats = rep.span / k ∧
    rec.contig = contig ∧ rec.start = t + 1 - rep.span ∧ rec.stop = t ∧
    rec.name = "(" ++ kmerString rep.kmer ++ ")"
      ++ toString rep.num_repeats ∧
    rep.span ≤ t ∧
    ((seq.map (· &&& 0xdf)).drop (rec.start - 1)).take
        (rec.stop + 1 - rec.start) =
      (List.replicate rep.num_repeats rep.kmer).flatten ++
        rep.kmer.take (rep.span % k) := by
  have hbslen : ((seq.take t).map (· &&& 0xdf)).length = t := by
    rw [List.length_map, List.length_take]
    omega
  obtain ⟨hspk, hsple, hklen, hnum, hrot, hwin⟩ :=
    scan_emit_spec k hk ((seq.take t).map (· &&& 0xdf)) rep hemit
  obtain ⟨hc, hstart, hstop, hname, hgate⟩ := to_bed_record_some hrecd
  have hlen_new : (KmerFinder.new k).len = k := by
    simp [KmerFinder.len, KmerFinder.new]
  rw [hbslen] at hsple
  refine ⟨hklen, hrot, hnum, hc, hstart, ?_, ?_, hsple, ?_⟩
  · rw [hstop]; omega
  · rw [hname, hlen_new, hnum]
  · have e1 : rec.start - 1 = t - rep.span := by rw [hstart]; omega
    have e2 : rec.stop + 1 - rec.start = rep.span := by
      rw [hstart, hstop]; omega
    rw [e1, e2, hnum]
    have hmt : (seq.map (· &&& 0xdf)).take t =
        (seq.take t).map (· &&& 0xdf) := (List.map_take ..).symm
    have hbd : ((seq.take t).map (· &&& 0xdf)).drop (t - rep.span) =
        ((seq.map (· &&& 0xdf)).drop (t - rep.span)).take rep.span := by
      rw [← hmt, List.drop_take]
      congr 1
      omega
    rw [hbslen] at hwin
    rw [← hbd]
    exact hwin

/-- C2: every locus the repeat-finder emits for a contig arises from the
single finder of some unit length `k` scanned over the first `t` uppercased
bases (`t + 1` the emission position): the emitted unit is that finder's
circular buffer rotated left by `(index + k - span % k) % k`, the count is
`⌊span / k⌋`, the record is `(contig, t + 1 - span, t, "(u)n")`, and the
uppercased reference bases of the 1-based inclusive slice
`[start, stop]` equal the unit repeated `n` times followed by its prefix of
length `span % k`. -/
theorem claim_c2_unit_reconstruction (opts : Opts) (contig : String)
    (seq : List Nat) (recs : List BedRecord) (rec : BedRecord)
    (hmin : 1 ≤ opts.min_repeat_length)
    (hrun : run_one_contig opts contig seq = Except.ok recs)
    (hrec : rec ∈ recs) :
    ∃ t k rep,
      t ≤ seq.length ∧
      opts.min_repeat_length ≤ k ∧ k ≤ opts.max_repeat_length ∧
      (scanF (KmerFinder.new k)
        ((seq.take t).map (· &&& 0xdf))).emit = some rep ∧
      to_bed_record opts contig (t + 1) (KmerFinder.new k) rep = some rec ∧
      rep.kmer.length = k ∧
      rep.kmer = (scanF (KmerFinder.new k)
          ((seq.take t).map (· &&& 0xdf))).kmer.rotate
        (((scanF (KmerFinder.new k) ((seq.take t).map (· &&& 0xdf))).index
          + k - rep.span % k) % k) ∧
      rep.num_repeats = rep.span / k ∧
      rec.contig = contig ∧ rec.start = t + 1 - rep.span ∧ rec.stop = t ∧
      rec.name = "(" ++ kmerString rep.kmer ++ ")"
        ++ toString rep.num_repeats ∧
      rep.span ≤ t ∧
      ((seq.map (· &&& 0xdf)).drop (rec.start - 1)).take
          (rec.stop + 1 - rec.start) =
        (List.replicate rep.num_repeats rep.kmer).flatten ++
          rep.kmer.take (rep.span % k) := by
  unfold run_one_contig at hrun
  cases hbf : build_finders opts with
  | error e => rw [hbf] at hrun; cases hrun
  | ok finders =>
    rw [hbf] at hrun
    obtain rfl := (Except.ok.inj hrun).symm
    by_cases hlt : opts.max_repeat_length < opts.min_repeat_length
    · rw [build_finders, if_pos hlt] at hbf
      cases hbf
    · rw [build_finders, if_neg hlt] at hbf
      obtain rfl := (Except.ok.inj hbf).symm
      rcases List.mem_append.mp hrec with hm | hm
      · rcases scanContig_rec_elim opts contig seq 1 _ rec hm with
          ⟨t, ht, hmem⟩
        rcases stepBase_rec_elim hmem with ⟨f, hfmem, rep, hemit, hrecd⟩
        rcases List.mem_map.mp hfmem with ⟨f0, hf0mem, hf0⟩
        rcases finders_from_mem hf0mem with ⟨k, hk1, hk2, rfl⟩
        subst hf0
        have hk : 1 ≤ k := Nat.le_trans hmin hk1
        have hflen : (scanF (KmerFinder.new k)
            ((seq.take t).map (· &&& 0xdf))).kmer.length = k := by
          rw [scanF_len]
          simp [KmerFinder.new]
        have hlcongr : to_bed_record opts contig (1 + t)
            (KmerFinder.new k) rep = some rec := by
          rw [← hrecd]
          refine (to_bed_record_len_congr opts contig (1 + t) ?_ rep).symm
          rw [add_len, hflen]
          simp [KmerFinder.new]
        rw [Nat.add_comm 1 t] at hlcongr
        exact ⟨t, k, rep, Nat.le_of_lt ht, hk1, hk2, hemit, hlcongr,
          c2_core hk (Nat.le_of_lt ht) hemit hlcongr⟩
      · rw [scanContig_state] at hm
        rcases flushFinders_rec_elim hm with ⟨f, hfmem, rep, hemit, hrecd⟩
        rcases List.mem_map.mp hfmem with ⟨f0, hf0mem, hf0⟩
        rcases finders_from_mem hf0mem with ⟨k, hk1, hk2, rfl⟩
        subst hf0
        have hk : 1 ≤ k := Nat.le_trans hmin hk1
        have htake : seq.take seq.length = seq := List.take_length _
        have hemit' : (scanF (KmerFinder.new k)
            ((seq.take seq.length).map (· &&& 0xdf))).emit = some rep := by
          rw [htake]
          exact hemit
        have hflen : (scanF (KmerFinder.new k)
            (seq.map (· &&& 0xdf))).kmer.length = k := by
          rw [scanF_len]
          simp [KmerFinder.new]
        have hlcongr : to_bed_record opts contig (seq.length + 1)
            (KmerFinder.new k) rep = some rec := by
          rw [← hrecd]
          refine (to_bed_record_len_congr opts contig (seq.length + 1)
            ?_ rep).symm
          rw [hflen]
          simp [KmerFinder.new]
        exact ⟨seq.length, k, rep, Nat.le_refl _, hk1, hk2, hemit', hlcongr,
          c2_core hk (Nat.le_refl _) hemit' hlcongr⟩

theorem claim_c2_unit_reconstruction_witness :
    run_one_contig ⟨10, 20, 3, 2, 5⟩ "c" (basesOf "CGCGCGCGCG") =
      Except.ok [⟨"c", 1, 10, "(CG)5"⟩] ∧
    (∃ t k rep,
      t ≤ (basesOf "CGCGCGCGCG").length ∧
      (⟨10, 20, 3, 2, 5⟩ : Opts).min_repeat_length ≤ k ∧
      k ≤ (⟨10, 20, 3, 2, 5⟩ : Opts).max_repeat_length ∧
      (scanF (KmerFinder.new k)
        (((basesOf "CGCGCGCGCG").take t).map (· &&& 0xdf))).emit =
          some rep ∧
      to_bed_record ⟨10, 20, 3, 2, 5⟩ "c" (t + 1) (KmerFinder.new k) rep =
        some ⟨"c", 1, 10, "(CG)5"⟩ ∧
      rep.kmer.length = k ∧
      rep.kmer = (scanF (KmerFinder.new k)
          (((basesOf "CGCGCGCGCG").take t).map (· &&& 0xdf))).kmer.rotate
        (((scanF (KmerFinder.new k)
            (((basesOf "CGCGCGCGCG").take t).map (· &&& 0xdf))).index
          + k - rep.span % k) % k) ∧
      rep.num_repeats = rep.span / k ∧
      (⟨"c", 1, 10, "(CG)5"⟩ : BedRecord).contig = "c" ∧
      (⟨"c", 1, 10, "(CG)5"⟩ : BedRecord).start = t + 1 - rep.span ∧
      (⟨"c", 1, 10, "(CG)5"⟩ : BedRecord).stop = t ∧
      (⟨"c", 1, 10, "(CG)5"⟩ : BedRecord).name =
        "(" ++ kmerString rep.kmer ++ ")" ++ toString rep.num_repeats ∧
      rep.span ≤ t ∧
      (((basesOf "CGCGCGCGCG").map (· &&& 0xdf)).drop
          ((⟨"c", 1, 10, "(CG)5"⟩ : BedRecord).start - 1)).take
          ((⟨"c", 1, 10, "(CG)5"⟩ : BedRecord).stop + 1 -
            (⟨"c", 1, 10, "(CG)5"⟩ : BedRecord).start) =
        (List.replicate rep.num_repeats rep.kmer).flatten ++
          rep.kmer.take (rep.span % k)) :=
  ⟨by rfl, claim_c2_unit_reconstruction ⟨10, 20, 3, 2, 5⟩ "c"
    (basesOf "CGCGCGCGCG") [⟨"c", 1, 10, "(CG)5"⟩] ⟨"c", 1, 10, "(CG)5"⟩
    (by decide) (by rfl) (List.mem_singleton.mpr rfl)⟩

end Mantis
